import Mathlib

/-!
Verification of `src/validation_np_hard/np_benchmarks.py`.

The Python module is shallowly embedded below: pure functions become Lean
functions, Python `int` becomes `Nat` (all quantities involved are
non-negative), Python `float` time/budget arithmetic becomes `ℚ` (the values
manipulated are exact decimals), and the Euclidean geometry of the TSP track
is interpreted over `ℝ` (`math.hypot a b = Real.sqrt (a^2 + b^2)`).
Fallible code paths (Python exceptions) are embedded as `Option`.
The wall clock `time.perf_counter` is embedded as an oracle `Nat → ℚ`
(successive calls read successive indices), and the seeded `random.Random`
stream as an oracle consulted at an incrementing counter, mirroring the
"shared generator rolling state" of the runner.
-/

namespace NPBench

/-! ## 3-SAT: `_sat_eval_clause`, `_sat_eval_cnf`, `solve_3sat_bruteforce` -/

/-- `Literal = Tuple[int, bool]  # (var_idx, is_negated)` -/
abbrev Literal := Nat × Bool

/-- `Clause = Tuple[Literal, Literal, Literal]` -/
abbrev Clause := Literal × Literal × Literal

/-- `CNF = List[Clause]` -/
abbrev CNF := List Clause

/-- Value of one literal under an assignment: `val = bits[var]; if neg: val = not val`. -/
def _sat_eval_lit (bits : List Bool) (lit : Literal) : Bool :=
  let val := bits.getD lit.1 false
  if lit.2 then !val else val

/-- `_sat_eval_clause`: the loop over the three literals returns `True` as soon
as one literal evaluates true, i.e. the disjunction of the three literals. -/
def _sat_eval_clause (bits : List Bool) (c : Clause) : Bool :=
  _sat_eval_lit bits c.1 || _sat_eval_lit bits c.2.1 || _sat_eval_lit bits c.2.2

/-- `_sat_eval_cnf`: `all(_sat_eval_clause(bits, c) for c in cnf)`. -/
def _sat_eval_cnf (bits : List Bool) (cnf : CNF) : Bool :=
  cnf.all (fun c => _sat_eval_clause bits c)

/-- `bits = [(mask >> i) & 1 == 1 for i in range(n_vars)]`. -/
def bitsOfMask (mask n_vars : Nat) : List Bool :=
  (List.range n_vars).map (fun i => (mask >>> i) &&& 1 == 1)

/-- `max_nodes is not None and nodes >= max_nodes`. -/
def capReached : Option Nat → Nat → Bool
  | some mn, nodes => decide (mn ≤ nodes)
  | none, _ => false

/-- The enumeration loop of `solve_3sat_bruteforce`: iterate over the list of
masks with the `nodes` counter; before examining a mask, return `None` if the
node cap is reached; otherwise build `bits` and test the CNF. -/
def satLoop (cnf : CNF) (n_vars : Nat) (max_nodes : Option Nat) :
    List Nat → Nat → Option (List Bool)
  | [], _ => none
  | mask :: rest, nodes =>
    if capReached max_nodes nodes then none
    else
      let bits := bitsOfMask mask n_vars
      if _sat_eval_cnf bits cnf then some bits
      else satLoop cnf n_vars max_nodes rest (nodes + 1)

/-- `solve_3sat_bruteforce`: exhaustive over `2^n` in increasing mask order,
with the optional `max_nodes` cap. -/
def solve_3sat_bruteforce (cnf : CNF) (n_vars : Nat) (max_nodes : Option Nat) :
    Option (List Bool) :=
  satLoop cnf n_vars max_nodes (List.range (2 ^ n_vars)) 0

/-- Whether mask `m` satisfies the CNF (the decision the loop makes at `m`). -/
def satAt (cnf : CNF) (n_vars m : Nat) : Bool :=
  _sat_eval_cnf (bitsOfMask m n_vars) cnf

/-- `maskOfBits` folds an assignment back into its mask (little-endian). -/
def maskOfBits : List Bool → Nat
  | [] => 0
  | b :: bs => (if b then 1 else 0) + 2 * maskOfBits bs

/-! ## 0/1 Knapsack: `solve_knapsack_dp` -/

/-- `Item = Tuple[int, int]  # (weight, value)` -/
abbrev Item := Nat × Nat

/-- In-place array write, with the array embedded as a function. -/
def setF {α : Type} (f : Nat → α) (i : Nat) (x : α) : Nat → α :=
  fun j => if j = i then x else f j

/-- Body of the inner capacity loop at capacity `c`, with
`cand = dp[c - w] + v` inlined:
`if cand > dp[c]: dp[c] = cand; keep[i][c] = True`. -/
def knapStep (w v c : Nat) (st : (Nat → Nat) × (Nat → Bool)) :
    (Nat → Nat) × (Nat → Bool) :=
  if st.1 c < st.1 (c - w) + v
  then (setF st.1 c (st.1 (c - w) + v), setF st.2 c true)
  else st

/-- `for c in range(capacity, w - 1, -1)`: run `knapStep` on `fuel` capacities
downward from `c` (the range has `capacity + 1 - w` elements). -/
def knapDown (w v : Nat) : Nat → Nat → ((Nat → Nat) × (Nat → Bool)) →
    (Nat → Nat) × (Nat → Bool)
  | 0, _, st => st
  | fuel + 1, c, st => knapDown w v fuel (c - 1) (knapStep w v c st)

/-- One pass of item `(w, v)` over the dp row; its keep row starts all `False`. -/
def knapPass (w v capacity : Nat) (dp : Nat → Nat) :
    (Nat → Nat) × (Nat → Bool) :=
  knapDown w v (capacity + 1 - w) capacity (dp, fun _ => false)

/-- The `for i, (w, v) in enumerate(items)` loop: fold the passes over the dp
row (initially all zero), collecting the per-item keep rows in order. -/
def knapRun (items : List Item) (capacity : Nat) :
    (Nat → Nat) × List (Nat → Bool) :=
  items.foldl
    (fun acc it =>
      let p := knapPass it.1 it.2 capacity acc.1
      (p.1, acc.2 ++ [p.2]))
    ((fun _ => 0), [])

/-- `best_c = max(range(capacity + 1), key=lambda c: dp[c])`: Python's `max`
keeps the earliest maximizer, replacing only on strict improvement. -/
def bestCapacity (dp : Nat → Nat) (capacity : Nat) : Nat :=
  (List.range (capacity + 1)).foldl (fun b c => if dp b < dp c then c else b) 0

/-- The backward reconstruction loop `for i in range(n - 1, -1, -1)`, fed the
rows `(i, items[i], keep[i])` in decreasing order of `i`; it appends `i` and
lowers the capacity by `items[i][0]` whenever `keep[i][c]` holds. -/
def reconLoop : List (Nat × Item × (Nat → Bool)) → Nat → List Nat
  | [], _ => []
  | (i, it, kr) :: rest, c =>
    if kr c then i :: reconLoop rest (c - it.1) else reconLoop rest c

/-- `solve_knapsack_dp`: the dp table fill followed by `picked` reconstruction
from the best capacity; the final `picked.reverse()` restores increasing order. -/
def solve_knapsack_dp (items : List Item) (capacity : Nat) : Nat × List Nat :=
  let r := knapRun items capacity
  let best_c := bestCapacity r.1 capacity
  let rows := ((items.enum.zip r.2).map fun p => (p.1.1, p.1.2, p.2)).reverse
  let picked := reconLoop rows best_c
  (r.1 best_c, picked.reverse)

/-- Specification-side optimum: best total value over subsets of the items
within capacity `c` (the exact 0/1-knapsack optimum). -/
def bestVal : List Item → Nat → Nat
  | [], _ => 0
  | (w, v) :: rest, c =>
    if w ≤ c then max (bestVal rest c) (bestVal rest (c - w) + v)
    else bestVal rest c

/-- Total weight of a selection (one `Bool` per item). -/
def selWeight : List Item → List Bool → Nat
  | (w, _) :: rest, b :: sel => (if b then w else 0) + selWeight rest sel
  | _, _ => 0

/-- Total value of a selection (one `Bool` per item). -/
def selValue : List Item → List Bool → Nat
  | (_, v) :: rest, b :: sel => (if b then v else 0) + selValue rest sel
  | _, _ => 0

/-- Total weight of a list of item indices. -/
def idxWeight (items : List Item) (idxs : List Nat) : Nat :=
  (idxs.map fun i => (items.getD i (0, 0)).1).sum

/-- Total value of a list of item indices. -/
def idxValue (items : List Item) (idxs : List Nat) : Nat :=
  (idxs.map fun i => (items.getD i (0, 0)).2).sum

/-- The reconstruction rows `(i, items[i], keep[i])` in decreasing `i`. -/
def keepRows (items : List Item) (capacity : Nat) :
    List (Nat × Item × (Nat → Bool)) :=
  ((items.enum.zip (knapRun items capacity).2).map fun p => (p.1.1, p.1.2, p.2)).reverse

/-! ## Vertex Cover: `_covers_all`, `solve_vertex_cover_bruteforce` -/

/-- `Edge = Tuple[int, int]` -/
abbrev Edge := Nat × Nat

/-- `_covers_all`: the loop returns `False` at the first edge with neither
endpoint in the cover, i.e. the conjunction over edges. -/
def _covers_all (edges : List Edge) (cover : List Bool) : Bool :=
  edges.all (fun e => cover.getD e.1 false || cover.getD e.2 false)

/-- `cover = [False] * n; for i in chosen: cover[i] = True`. -/
def buildCover (n : Nat) (chosen : List Nat) : List Bool :=
  chosen.foldl (fun cov i => cov.set i true) (List.replicate n false)

/-- The recursive include/exclude search `rec(start, chosen)` of
`solve_vertex_cover_bruteforce`; the remaining vertex count `fuel = n - start`
is carried explicitly for termination, so `start == n` is the `fuel = 0` case.
The mutation `chosen.append(start) … chosen.pop()` becomes `chosen ++ [start]`. -/
def vcRec (edges : List Edge) (n k : Nat) : Nat → Nat → List Nat → Option (List Bool)
  | fuel, start, chosen =>
    if k < chosen.length then none
    else
      match fuel with
      | 0 =>
        let cover := buildCover n chosen
        if _covers_all edges cover then some cover else none
      | fuel' + 1 =>
        match vcRec edges n k fuel' (start + 1) chosen with
        | some out => some out
        | none => vcRec edges n k fuel' (start + 1) (chosen ++ [start])

/-- `solve_vertex_cover_bruteforce`: `rec(0, [])`. -/
def solve_vertex_cover_bruteforce (edges : List Edge) (n k : Nat) :
    Option (List Bool) :=
  vcRec edges n k n 0 []

/-! ## TSP: `_dist`, `tsp_tour_length`, `tsp_nearest_neighbor`, `tsp_2opt`

Euclidean geometry is interpreted over `ℝ`; `math.hypot a b` is
`Real.sqrt (a^2 + b^2)`.  The comparisons on distances make these definitions
noncomputable, which only means they are not compiled — the proofs below are
about their mathematical values. -/

/-- `Point = Tuple[float, float]` over the reals. -/
abbrev Point := ℝ × ℝ

/-- `_dist`: `math.hypot(a[0] - b[0], a[1] - b[1])`. -/
noncomputable def _dist (a b : Point) : ℝ :=
  Real.sqrt ((a.1 - b.1) ^ 2 + (a.2 - b.2) ^ 2)

/-- The point of the tour at position `i`: `points[tour[i]]`. -/
noncomputable def tourPt (points : List Point) (tour : List Nat) (i : Nat) : Point :=
  points.getD (tour.getD i 0) (0, 0)

/-- `tsp_tour_length`: `sum(_dist(points[tour[i]], points[tour[(i+1) % n]]))`. -/
noncomputable def tsp_tour_length (points : List Point) (tour : List Nat) : ℝ :=
  Finset.sum (Finset.range tour.length) fun i =>
    _dist (tourPt points tour i) (tourPt points tour ((i + 1) % tour.length))

/-- The numeric noise guard `1e-12` of the 2-opt loop. -/
noncomputable def twoOptEps : ℝ := 1 / 10 ^ 12

/-- `gain(i, k)` of `tsp_2opt`, on the current tour. -/
noncomputable def twoOptGain (points : List Point) (tour : List Nat) (i k : Nat) : ℝ :=
  (_dist (tourPt points tour i) (tourPt points tour ((i + 1) % tour.length)) +
    _dist (tourPt points tour k) (tourPt points tour ((k + 1) % tour.length))) -
  (_dist (tourPt points tour i) (tourPt points tour k) +
    _dist (tourPt points tour ((i + 1) % tour.length))
      (tourPt points tour ((k + 1) % tour.length)))

/-- `tour[i+1 : k+1] = reversed(tour[i+1 : k+1])`: reverse the segment of
positions `i+1 … k` in place. -/
def twoOptSwap (tour : List Nat) (i k : Nat) : List Nat :=
  tour.take (i + 1) ++ ((tour.drop (i + 1)).take (k - i)).reverse ++ tour.drop (k + 1)

/-- State of the 2-opt improvement loop: the mutated `tour`, the `swaps`
counter and the `improved` flag. -/
structure TwoOptSt where
  tour : List Nat
  swaps : Nat
  improved : Bool

/-- `range(i + 2, n - (0 if i > 0 else 1))`: the `k` indices scanned for a
fixed `i`. -/
def krange (n i : Nat) : List Nat :=
  List.range' (i + 2) ((n - (if 0 < i then 0 else 1)) - (i + 2))

/-- The inner `for k` loop of `tsp_2opt`: apply the swap whenever the gain
beats the noise guard, and break out once the swap ceiling is reached. -/
noncomputable def kLoop (points : List Point) (max_swaps i : Nat) :
    List Nat → TwoOptSt → TwoOptSt
  | [], st => st
  | k :: ks, st =>
    if twoOptEps < twoOptGain points st.tour i k then
      let st' : TwoOptSt := ⟨twoOptSwap st.tour i k, st.swaps + 1, true⟩
      if max_swaps ≤ st'.swaps then st' else kLoop points max_swaps i ks st'
    else kLoop points max_swaps i ks st

/-- The outer `for i` loop of `tsp_2opt`, with its own ceiling break. -/
noncomputable def iLoop (points : List Point) (max_swaps n : Nat) :
    List Nat → TwoOptSt → TwoOptSt
  | [], st => st
  | i :: is', st =>
    let st' := kLoop points max_swaps i (krange n i) st
    if max_swaps ≤ st'.swaps then st' else iLoop points max_swaps n is' st'

/-- The `while improved and swaps < max_swaps` loop of `tsp_2opt`.  The fuel
bounds the number of passes; `max_swaps + 1` passes suffice since every pass
but the last performs at least one swap. -/
noncomputable def twoOptWhile (points : List Point) (max_swaps n : Nat) :
    Nat → TwoOptSt → TwoOptSt
  | 0, st => st
  | fuel + 1, st =>
    if st.improved = true ∧ st.swaps < max_swaps then
      twoOptWhile points max_swaps n fuel
        (iLoop points max_swaps n (List.range (n - 1)) ⟨st.tour, st.swaps, false⟩)
    else st

/-- `tsp_2opt`: return the tour unchanged when `n < 4`, else run the
improvement loop. -/
noncomputable def tsp_2opt (points : List Point) (tour : List Nat)
    (max_swaps : Nat) : List Nat :=
  if tour.length < 4 then tour
  else (twoOptWhile points max_swaps tour.length (max_swaps + 1) ⟨tour, 0, true⟩).tour

/-- First-minimum selection: `min(iterable, key=f)` keeps the earliest element
with minimal key, replacing the candidate only on a strictly smaller key. -/
noncomputable def argminBy (f : Nat → ℝ) : List Nat → Nat → Nat
  | [], cur => cur
  | x :: xs, cur => argminBy f xs (if f x < f cur then x else cur)

/-- The `while unvisited` loop of `tsp_nearest_neighbor`: append the nearest
unvisited index to the tour and remove it from the unvisited pool.  The pool is
kept as a sorted list; the fuel equals the initial pool size. -/
noncomputable def nnLoop (points : List Point) :
    Nat → List Nat → List Nat → List Nat
  | 0, _, tour => tour
  | fuel + 1, unvisited, tour =>
    match unvisited with
    | [] => tour
    | u :: us =>
      let lastIdx := tour.getLastD 0
      let nxt := argminBy
        (fun j => _dist (points.getD lastIdx (0, 0)) (points.getD j (0, 0))) us u
      nnLoop points fuel ((u :: us).erase nxt) (tour ++ [nxt])

/-- `tsp_nearest_neighbor`, embedded with its failure mode:
`unvisited.remove(start)` raises `KeyError` unless `start ∈ range(n)`, so the
function is total only for `start < n` (in particular it fails on an empty
point list, where `range(n)` is empty). -/
noncomputable def tsp_nearest_neighbor? (points : List Point) (start : Nat) :
    Option (List Nat) :=
  let n := points.length
  if start < n then
    some (nnLoop points n ((List.range n).erase start) [start])
  else none

/-- The `meta` record of `tsp_nearest_neighbor_accel`. -/
structure AccelMeta where
  backend : String
  used_gpu : Bool

/-- `tsp_nearest_neighbor_accel`, with the CuPy/Torch code paths abstracted as
the parameter `gpu` (`none`: no usable CUDA backend, fall through to the CPU
path; `some r`: a successful GPU run returning `r`).  The `n == 0` early
return with the initial `{"backend": "cpu", "used_gpu": False}` meta happens
before accelerator detection in the source. -/
noncomputable def tsp_nearest_neighbor_accel (gpu : Option (List Nat × AccelMeta))
    (points : List Point) (start : Nat) : List Nat × AccelMeta :=
  if points.length = 0 then ([], ⟨"cpu", false⟩)
  else
    match gpu with
    | some r => r
    | none => ((tsp_nearest_neighbor? points start).getD [], ⟨"cpu", false⟩)

/-- Sum of distances along consecutive pairs of a point list. -/
noncomputable def adjSum : List Point → ℝ
  | [] => 0
  | [_] => 0
  | a :: b :: rest => _dist a b + adjSum (b :: rest)

/-- Cyclic tour length of a point list: the open path plus the wrap edge. -/
noncomputable def cycLen (P : List Point) : ℝ :=
  adjSum P + (if P.length = 0 then 0 else _dist (P.getLastD (0, 0)) (P.headD (0, 0)))

/-! ## `BenchConfig` and `run_np_benchmarks`

The wall clock `time.perf_counter` is embedded as an oracle `τ : Nat → ℚ`
read at an incrementing index (`tick`), and the seeded `random.Random` as a
`Gen` oracle consulted at an incrementing counter (order of consumption
matters, mirroring the shared generator's rolling state).  The loops carry
explicit fuel because their termination depends on the clock actually
advancing.  The `accelerators` hardware probe of the source is hardware I/O
and is abstracted by the `gpu` parameter (as for
`tsp_nearest_neighbor_accel`). -/

/-- `BenchConfig` (float fields over `ℚ`). -/
structure BenchConfig where
  seed : Int := 1337
  minutes : ℚ := 5
  per_problem_max_seconds : Option ℚ := none
  use_gpu : Bool := true

/-- `_deadline_seconds`: `float(cfg.minutes) * 60.0`. -/
def _deadline_seconds (cfg : BenchConfig) : ℚ :=
  cfg.minutes * 60

/-- `per_problem_budget` (a closure over `cfg` and `budget` in the source):
the override when given, else `max(1.0, budget / 4.0)`. -/
def per_problem_budget (cfg : BenchConfig) : ℚ :=
  match cfg.per_problem_max_seconds with
  | some s => s
  | none => max 1 (_deadline_seconds cfg / 4)

/-- Indices into the clock oracle and the generator stream. -/
structure RunSt where
  clk : Nat
  rng : Nat

/-- `_now()`: read the clock oracle at the next index. -/
def tick (τ : Nat → ℚ) (s : RunSt) : ℚ × RunSt :=
  (τ s.clk, ⟨s.clk + 1, s.rng⟩)

/-- `_time_left(start, budget_s) = budget_s - (_now() - start)`. -/
def _time_left (τ : Nat → ℚ) (start budget_s : ℚ) (s : RunSt) : ℚ × RunSt :=
  (budget_s - ((tick τ s).1 - start), (tick τ s).2)

/-- The deterministic generator stream (one call advances the counter once). -/
structure Gen where
  gen3sat : Nat → Nat → Nat → CNF
  genPts : Nat → Nat → List Point
  genEdges : Nat → Nat → ℚ → List Edge
  genItems : Nat → Nat → Nat → Nat → List Item

/-- One loop-guard evaluation:
`_time_left(tr_start, tr_budget) > 0.25 and _time_left(start, budget) > 0.25`,
with Python's short-circuit (the second clock read happens only when the first
conjunct holds). -/
def guardCheck (τ : Nat → ℚ) (tr_start tr_budget start budget : ℚ)
    (s : RunSt) : Bool × RunSt :=
  if (_time_left τ tr_start tr_budget s).1 > 1 / 4 then
    (decide ((_time_left τ start budget (_time_left τ tr_start tr_budget s).2).1 > 1 / 4),
      (_time_left τ start budget (_time_left τ tr_start tr_budget s).2).2)
  else (false, (_time_left τ tr_start tr_budget s).2)

/-- The rolling best of the 3-SAT track. -/
structure SatBest where
  max_n : Nat
  max_m : Nat
  solved : Nat
  attempted : Nat

/-- The `"3sat"` entry of the report. -/
structure SatResult extends SatBest where
  seconds : ℚ

/-- The `"tsp"` entry of the report. -/
structure TspResult where
  n : Nat
  base_len : ℝ
  improved_len : ℝ
  improvement : ℝ
  seconds : ℚ
  note : String
  accel : AccelMeta

/-- The rolling best of the vertex-cover track (`m` present only on success). -/
structure VcBest where
  n : Nat
  k : Nat
  found : Bool
  m : Option Nat

/-- The `"vertex_cover"` entry of the report. -/
structure VcResult extends VcBest where
  seconds : ℚ
  note : String

/-- The `"knapsack"` entry of the report. -/
structure KsResult where
  n : Nat
  capacity : Nat
  best_value : Nat
  picked_count : Nat
  seconds : ℚ
  note : String

/-- The `results["problems"]` mapping: a key is present iff its field is
`some`. -/
structure Problems where
  threesat : Option SatResult
  tsp : Option TspResult
  vertex_cover : Option VcResult
  knapsack : Option KsResult

/-- The aggregate report of `run_np_benchmarks` (the `accelerators` hardware
probe is abstracted away). -/
structure Report where
  seed : Int
  minutes : ℚ
  use_gpu : Bool
  started_perf_counter : ℚ
  problems : Problems
  seconds_total : ℚ
  completed : Bool

/-- The 3-SAT scaling loop: while both trackers are above the guard, generate
a CNF at `m = 4n` clauses, count the attempt, solve with the
`2^min(n, 22)` node cap; on success record `(n, m)` and continue at `n + 1`,
otherwise stop. -/
def satLoopR (τ : Nat → ℚ) (g : Gen) (start budget sat_start sat_budget : ℚ) :
    Nat → Nat → SatBest → RunSt → SatBest × RunSt
  | 0, _, best, s => (best, s)
  | fuel + 1, n, best, s =>
    let p := guardCheck τ sat_start sat_budget start budget s
    if p.1 then
      let cnf := g.gen3sat p.2.rng n (4 * n)
      let s2 : RunSt := ⟨p.2.clk, p.2.rng + 1⟩
      let best1 : SatBest := ⟨best.max_n, best.max_m, best.solved, best.attempted + 1⟩
      match solve_3sat_bruteforce cnf n (some (2 ^ min n 22)) with
      | some _ =>
        satLoopR τ g start budget sat_start sat_budget fuel (n + 1)
          ⟨n, 4 * n, best1.solved + 1, best1.attempted⟩ s2
      | none => (best1, s2)
    else (best, p.2)

/-- The 3-SAT track: read `sat_start`, run the scaling loop from `n = 12`,
read the elapsed seconds. -/
def satTrack (τ : Nat → ℚ) (g : Gen) (start budget ppb : ℚ) (fuel : Nat)
    (s : RunSt) : SatResult × RunSt :=
  let p0 := tick τ s
  let pl := satLoopR τ g start budget p0.1 ppb fuel 12 ⟨0, 0, 0, 0⟩ p0.2
  let pe := tick τ pl.2
  (⟨pl.1, pe.1 - p0.1⟩, pe.2)

/-- The TSP track.  The Python `while` body ends in an unconditional `break`,
so the track performs at most one generate-and-solve iteration; the result
entry is written only inside that body. -/
noncomputable def tspTrack (τ : Nat → ℚ) (g : Gen)
    (gpu : Option (List Nat × AccelMeta)) (cfg : BenchConfig)
    (start budget ppb : ℚ) (s : RunSt) : Option TspResult × RunSt :=
  let p0 := tick τ s
  let pg := guardCheck τ p0.1 ppb start budget p0.2
  if pg.1 then
    let pts := g.genPts pg.2.rng 200
    let s2 : RunSt := ⟨pg.2.clk, pg.2.rng + 1⟩
    let tm :=
      if cfg.use_gpu then tsp_nearest_neighbor_accel gpu pts 0
      else ((tsp_nearest_neighbor? pts 0).getD [], ⟨"cpu", false⟩)
    let base_len := tsp_tour_length pts tm.1
    let tour2 := tsp_2opt pts tm.1 1000
    let improved_len := tsp_tour_length pts tour2
    let pe := tick τ s2
    (some ⟨200, base_len, improved_len, max 0 (base_len - improved_len),
      pe.1 - p0.1, "Heuristic (nearest-neighbor + 2-opt).", tm.2⟩, pe.2)
  else (none, pg.2)

/-- `for k in range(0, min(vc_n, 10) + 1)`: first `k` whose exact search finds
a cover. -/
def vcFindK (edges : List Edge) (vc_n : Nat) : List Nat → Option Nat
  | [] => none
  | k :: ks =>
    match solve_vertex_cover_bruteforce edges vc_n k with
    | some _ => some k
    | none => vcFindK edges vc_n ks

/-- The vertex-cover scaling loop: while both trackers are above the guard,
generate a graph at edge probability `0.2`, search `k = 0 … min(vc_n, 10)`;
on success record `(vc_n, k, m)` and continue at `vc_n + 1`, else stop. -/
def vcLoopR (τ : Nat → ℚ) (g : Gen) (start budget vc_start vc_budget : ℚ) :
    Nat → Nat → VcBest → RunSt → VcBest × RunSt
  | 0, _, best, s => (best, s)
  | fuel + 1, vc_n, best, s =>
    let p := guardCheck τ vc_start vc_budget start budget s
    if p.1 then
      let edges := g.genEdges p.2.rng vc_n (1 / 5)
      let s2 : RunSt := ⟨p.2.clk, p.2.rng + 1⟩
      match vcFindK edges vc_n (List.range (min vc_n 10 + 1)) with
      | some found_k =>
        vcLoopR τ g start budget vc_start vc_budget fuel (vc_n + 1)
          ⟨vc_n, found_k, true, some edges.length⟩ s2
      | none => (best, s2)
    else (best, p.2)

/-- The vertex-cover track: scaling loop from `n = 22`. -/
def vcTrack (τ : Nat → ℚ) (g : Gen) (start budget ppb : ℚ) (fuel : Nat)
    (s : RunSt) : VcResult × RunSt :=
  let p0 := tick τ s
  let pl := vcLoopR τ g start budget p0.1 ppb fuel 22 ⟨0, 0, false, none⟩ p0.2
  let pe := tick τ pl.2
  (⟨pl.1, pe.1 - p0.1, "Exact (bruteforce) on small n; bounded k search."⟩, pe.2)

/-- The knapsack track: there is no budget loop — it unconditionally generates
one 300-item instance and runs the DP at capacity 2000. -/
def ksTrack (τ : Nat → ℚ) (g : Gen) (s : RunSt) : KsResult × RunSt :=
  let p0 := tick τ s
  let items := g.genItems p0.2.rng 300 50 100
  let s2 : RunSt := ⟨p0.2.clk, p0.2.rng + 1⟩
  let r := solve_knapsack_dp items 2000
  let pe := tick τ s2
  (⟨300, 2000, r.1, r.2.length, pe.1 - p0.1,
    "Exact DP (pseudo-polynomial in capacity)."⟩, pe.2)

/-- `run_np_benchmarks`: the four tracks in fixed order; the `"tsp"` key is
assigned only inside the TSP loop body, the other three after their
loops. -/
noncomputable def run_np_benchmarks (τ : Nat → ℚ) (g : Gen)
    (gpu : Option (List Nat × AccelMeta)) (cfg : BenchConfig) (fuel : Nat)
    (s0 : RunSt) : Report × RunSt :=
  let p0 := tick τ s0
  let budget := _deadline_seconds cfg
  let ppb := per_problem_budget cfg
  let pSat := satTrack τ g p0.1 budget ppb fuel p0.2
  let pTsp := tspTrack τ g gpu cfg p0.1 budget ppb pSat.2
  let pVc := vcTrack τ g p0.1 budget ppb fuel pTsp.2
  let pKs := ksTrack τ g pVc.2
  let pe := tick τ pKs.2
  (⟨cfg.seed, cfg.minutes, cfg.use_gpu, p0.1,
    ⟨some pSat.1, pTsp.1, some pVc.1, some pKs.1⟩,
    pe.1 - p0.1, true⟩, pe.2)

/-- The constant-zero clock oracle (time never advances). -/
def tau0 : Nat → ℚ := fun _ => 0

/-- A trivial generator oracle returning empty instances. -/
def gen0 : Gen :=
  ⟨fun _ _ _ => [], fun _ _ => [], fun _ _ _ => [], fun _ _ _ _ => []⟩

lemma satLoop_eq_find (cnf : CNF) (n_vars mn : Nat) :
    ∀ (len a : Nat),
      satLoop cnf n_vars (some mn) (List.range' a len) a =
        ((List.range' a (min len (mn - a))).find? (satAt cnf n_vars)).map
          (fun m => bitsOfMask m n_vars) := by
  intro len
  induction len with
  | zero => intro a; simp [satLoop]
  | succ l ih =>
    intro a
    by_cases hcap : mn ≤ a
    · have h0 : min (l + 1) (mn - a) = 0 := by omega
      rw [List.range'_succ, h0]
      simp [satLoop, capReached, hcap]
    · have hmin : min (l + 1) (mn - a) = (min l (mn - (a + 1))) + 1 := by omega
      rw [List.range'_succ, hmin, List.range'_succ]
      have hcap' : capReached (some mn) a = false := by
        simp [capReached, hcap]
      rcases hsat : satAt cnf n_vars a with _ | _
      · have hsat' : _sat_eval_cnf (bitsOfMask a n_vars) cnf = false := hsat
        simp only [satLoop, hcap', Bool.false_eq_true, if_false, hsat', List.find?_cons, hsat]
        exact ih (a + 1)
      · have hsat' : _sat_eval_cnf (bitsOfMask a n_vars) cnf = true := hsat
        simp only [satLoop, hcap', Bool.false_eq_true, if_false, hsat', List.find?_cons, hsat,
          if_true]
        rfl

lemma solve_3sat_eq_find (cnf : CNF) (n_vars mn : Nat) :
    solve_3sat_bruteforce cnf n_vars (some mn) =
      ((List.range (min (2 ^ n_vars) mn)).find? (satAt cnf n_vars)).map
        (fun m => bitsOfMask m n_vars) := by
  have h := satLoop_eq_find cnf n_vars mn (2 ^ n_vars) 0
  rw [solve_3sat_bruteforce, List.range_eq_range', h]
  simp [List.range_eq_range']

lemma find?_range_eq_some {p : Nat → Bool} {n m : Nat} :
    (List.range n).find? p = some m ↔
      m < n ∧ p m = true ∧ ∀ j < m, p j = false := by
  induction n with
  | zero => simp
  | succ k ih =>
    rw [List.range_succ, List.find?_append]
    constructor
    · intro h
      rcases hk : (List.range k).find? p with _ | m'
      · rw [hk] at h
        have h' : [k].find? p = some m := h
        rw [List.find?_singleton] at h'
        by_cases hp : p k = true
        · rw [if_pos hp] at h'
          obtain rfl : k = m := by injection h'
          refine ⟨Nat.lt_succ_self _, hp, ?_⟩
          intro j hj
          have := List.find?_eq_none.mp hk
          exact Bool.eq_false_iff.mpr fun hc => (this j (List.mem_range.mpr hj)) hc
        · rw [if_neg hp] at h'
          exact absurd h' (by simp)
      · rw [hk] at h
        have h' : some m' = some m := h
        obtain rfl : m' = m := by injection h'
        obtain ⟨h1, h2, h3⟩ := ih.mp hk
        exact ⟨Nat.lt_succ_of_lt h1, h2, h3⟩
    · rintro ⟨hlt, hp, hmin⟩
      rcases Nat.lt_or_ge m k with hmk | hmk
      · have hsome : (List.range k).find? p = some m := ih.mpr ⟨hmk, hp, hmin⟩
        rw [hsome]
        rfl
      · have hm : m = k := by omega
        subst hm
        have hnone : (List.range m).find? p = none := by
          rw [List.find?_eq_none]
          intro j hj
          exact fun hc => by simp [hmin j (List.mem_range.mp hj)] at hc
        rw [hnone, List.find?_singleton, if_pos hp]
        rfl

lemma bitsOfMask_zero (mask : Nat) : bitsOfMask mask 0 = [] := by
  simp [bitsOfMask]

lemma bitsOfMask_succ (mask n : Nat) :
    bitsOfMask mask (n + 1) = (mask &&& 1 == 1) :: bitsOfMask (mask >>> 1) n := by
  rw [bitsOfMask, List.range_succ_eq_map]
  simp only [List.map_cons, List.map_map]
  have hhead : ((mask >>> 0) &&& 1 == 1) = (mask &&& 1 == 1) := by
    norm_num
  have htail :
      List.map ((fun i => mask >>> i &&& 1 == 1) ∘ Nat.succ) (List.range n) =
        bitsOfMask (mask >>> 1) n := by
    rw [bitsOfMask]
    apply List.map_congr_left
    intro i _
    have hs : mask >>> (i + 1) = (mask >>> 1) >>> i := by
      rw [Nat.add_comm, Nat.shiftRight_add]
    simp [Function.comp, Nat.succ_eq_add_one, hs]
  rw [hhead, htail]

lemma maskOfBits_lt (bits : List Bool) : maskOfBits bits < 2 ^ bits.length := by
  induction bits with
  | nil => simp [maskOfBits]
  | cons b bs ih =>
    simp only [maskOfBits, List.length_cons, pow_succ]
    cases b <;> simp <;> omega

lemma bitsOfMask_maskOfBits (bits : List Bool) :
    bitsOfMask (maskOfBits bits) bits.length = bits := by
  induction bits with
  | nil => simp [bitsOfMask]
  | cons b bs ih =>
    rw [List.length_cons, bitsOfMask_succ]
    have h1 : (maskOfBits (b :: bs)) &&& 1 = maskOfBits (b :: bs) % 2 := Nat.and_one_is_mod _
    have h2 : (maskOfBits (b :: bs)) >>> 1 = maskOfBits (b :: bs) / 2 := Nat.shiftRight_one _
    have hm : maskOfBits (b :: bs) = (if b then 1 else 0) + 2 * maskOfBits bs := rfl
    have hhead : (maskOfBits (b :: bs) &&& 1 == 1) = b := by
      rw [h1, hm]
      cases b
      · show ((0 + 2 * maskOfBits bs) % 2 == 1) = false
        simp
      · show ((1 + 2 * maskOfBits bs) % 2 == 1) = true
        simp [Nat.add_mul_mod_self_left]
    have htail : maskOfBits (b :: bs) >>> 1 = maskOfBits bs := by
      rw [h2, hm]
      cases b
      · show (0 + 2 * maskOfBits bs) / 2 = maskOfBits bs
        omega
      · show (1 + 2 * maskOfBits bs) / 2 = maskOfBits bs
        omega
    rw [hhead, htail, ih]

/-- C1. `solve_3sat_bruteforce` enumerates masks in increasing order (variable
`i` bound to bit `i`), returns `some` iff some mask strictly below
`min (2^n) max_nodes` satisfies the CNF, the returned assignment is the one of
the least such mask, and with `max_nodes ≥ 2^n` a `none` answer means the CNF
is unsatisfiable over length-`n` assignments. -/
theorem solve_3sat_bruteforce_correct (cnf : CNF) (n mn : Nat) :
    (∀ bits, solve_3sat_bruteforce cnf n (some mn) = some bits ↔
        ∃ m, m < min (2 ^ n) mn ∧ satAt cnf n m = true ∧
          (∀ j < m, satAt cnf n j = false) ∧ bits = bitsOfMask m n) ∧
    (solve_3sat_bruteforce cnf n (some mn) = none ↔
        ∀ m < min (2 ^ n) mn, satAt cnf n m = false) ∧
    (2 ^ n ≤ mn → solve_3sat_bruteforce cnf n (some mn) = none →
        ∀ bits : List Bool, bits.length = n → _sat_eval_cnf bits cnf = false) := by
  have hfind := solve_3sat_eq_find cnf n mn
  refine ⟨?_, ?_, ?_⟩
  · intro bits
    rw [hfind]
    constructor
    · intro h
      rcases hf : (List.range (min (2 ^ n) mn)).find? (satAt cnf n) with _ | m
      · rw [hf] at h
        exact Option.noConfusion h
      · rw [hf] at h
        have h' : some (bitsOfMask m n) = some bits := h
        injection h' with he
        obtain ⟨h1, h2, h3⟩ := find?_range_eq_some.mp hf
        exact ⟨m, h1, h2, h3, he.symm⟩
    · rintro ⟨m, h1, h2, h3, rfl⟩
      rw [find?_range_eq_some.mpr ⟨h1, h2, h3⟩]
      rfl
  · rw [hfind]
    rcases hf : (List.range (min (2 ^ n) mn)).find? (satAt cnf n) with _ | m
    · refine ⟨fun _ m hm => ?_, fun _ => rfl⟩
      have := List.find?_eq_none.mp hf m (List.mem_range.mpr hm)
      exact Bool.eq_false_iff.mpr this
    · refine ⟨fun h => Option.noConfusion h, fun hall => ?_⟩
      obtain ⟨h1, h2, _⟩ := find?_range_eq_some.mp hf
      rw [hall m h1] at h2
      exact Bool.noConfusion h2
  · intro hcap hnone bits hlen
    rw [hfind] at hnone
    rcases hf : (List.range (min (2 ^ n) mn)).find? (satAt cnf n) with _ | m
    · by_contra hc
      have hsat : satAt cnf n (maskOfBits bits) = true := by
        rw [satAt]
        subst hlen
        rw [bitsOfMask_maskOfBits]
        exact Bool.not_eq_false _ |>.mp hc
      have hlen2 : maskOfBits bits < 2 ^ n := by
        have := maskOfBits_lt bits
        rwa [hlen] at this
      have hlt : maskOfBits bits < min (2 ^ n) mn :=
        lt_min_iff.mpr ⟨hlen2, lt_of_lt_of_le hlen2 hcap⟩
      have := List.find?_eq_none.mp hf (maskOfBits bits) (List.mem_range.mpr hlt)
      exact this hsat
    · rw [hf] at hnone; simp at hnone

/-- Witness for C1 at a concrete instance: the CNF `{x0 ∨ x0 ∨ x0}` over one
variable, cap 2, is first satisfied at mask 1, so the solver returns `[true]`. -/
theorem solve_3sat_bruteforce_correct_witness :
    solve_3sat_bruteforce [((0, false), (0, false), (0, false))] 1 (some 2) =
      some [true] :=
  ((solve_3sat_bruteforce_correct [((0, false), (0, false), (0, false))] 1 2).1
    [true]).mpr ⟨1, by decide, by decide, by decide, by decide⟩

lemma knapDown_spec (w v : Nat) :
    ∀ (fuel c : Nat) (dp : Nat → Nat) (kp : Nat → Bool),
      w + fuel ≤ c + 1 →
      (∀ j, (knapDown w v fuel c (dp, kp)).1 j =
          if c + 1 - fuel ≤ j ∧ j ≤ c ∧ dp j < dp (j - w) + v
          then dp (j - w) + v else dp j) ∧
      (∀ j, (knapDown w v fuel c (dp, kp)).2 j =
          if c + 1 - fuel ≤ j ∧ j ≤ c ∧ dp j < dp (j - w) + v
          then true else kp j) := by
  intro fuel
  induction fuel with
  | zero =>
    intro c dp kp _
    refine ⟨fun j => ?_, fun j => ?_⟩ <;>
      · rw [knapDown]
        split_ifs <;> first | rfl | (exfalso; omega)
  | succ f ih =>
    intro c dp kp hwf
    rw [knapDown]
    by_cases himp : dp c < dp (c - w) + v
    · have hstep : knapStep w v c (dp, kp) =
          (setF dp c (dp (c - w) + v), setF kp c true) := by
        show (if dp c < dp (c - w) + v
            then (setF dp c (dp (c - w) + v), setF kp c true)
            else (dp, kp)) = _
        rw [if_pos himp]
      rw [hstep]
      obtain ⟨ih1, ih2⟩ := ih (c - 1) (setF dp c (dp (c - w) + v)) (setF kp c true)
        (by omega)
      refine ⟨fun j => ?_, fun j => ?_⟩
      · rw [ih1 j]
        by_cases hjc : j = c
        · subst hjc
          simp only [setF]
          split_ifs <;> first | rfl | omega
        · have h1 : setF dp c (dp (c - w) + v) j = dp j := by
            rw [setF, if_neg hjc]
          rw [h1]
          by_cases hjw : j - w = c
          · have h2 : setF dp c (dp (c - w) + v) (j - w) = dp (c - w) + v := by
              rw [setF, if_pos hjw]
            rw [h2]
            split_ifs <;> first | rfl | omega
          · have h2 : setF dp c (dp (c - w) + v) (j - w) = dp (j - w) := by
              rw [setF, if_neg hjw]
            rw [h2]
            split_ifs <;> first | rfl | omega
      · rw [ih2 j]
        by_cases hjc : j = c
        · subst hjc
          simp only [setF]
          split_ifs <;> first | rfl | omega
        · have h1 : setF dp c (dp (c - w) + v) j = dp j := by
            rw [setF, if_neg hjc]
          have h1' : setF kp c true j = kp j := by
            rw [setF, if_neg hjc]
          rw [h1, h1']
          by_cases hjw : j - w = c
          · have h2 : setF dp c (dp (c - w) + v) (j - w) = dp (c - w) + v := by
              rw [setF, if_pos hjw]
            rw [h2]
            split_ifs <;> first | rfl | omega
          · have h2 : setF dp c (dp (c - w) + v) (j - w) = dp (j - w) := by
              rw [setF, if_neg hjw]
            rw [h2]
            split_ifs <;> first | rfl | omega
    · have hstep : knapStep w v c (dp, kp) = (dp, kp) := by
        show (if dp c < dp (c - w) + v
            then (setF dp c (dp (c - w) + v), setF kp c true)
            else (dp, kp)) = _
        rw [if_neg himp]
      rw [hstep]
      obtain ⟨ih1, ih2⟩ := ih (c - 1) dp kp (by omega)
      refine ⟨fun j => ?_, fun j => ?_⟩
      · rw [ih1 j]
        by_cases hjc : j = c
        · subst hjc
          split_ifs <;> first | rfl | omega
        · split_ifs <;> first | rfl | omega
      · rw [ih2 j]
        by_cases hjc : j = c
        · subst hjc
          split_ifs <;> first | rfl | omega
        · split_ifs <;> first | rfl | omega

lemma knapPass_spec (w v capacity : Nat) (dp : Nat → Nat) :
    (∀ j, (knapPass w v capacity dp).1 j =
        if w ≤ j ∧ j ≤ capacity ∧ dp j < dp (j - w) + v
        then dp (j - w) + v else dp j) ∧
    (∀ j, (knapPass w v capacity dp).2 j =
        if w ≤ j ∧ j ≤ capacity ∧ dp j < dp (j - w) + v
        then true else false) := by
  rw [knapPass]
  by_cases hw : w ≤ capacity + 1
  · have hfuel : w + (capacity + 1 - w) ≤ capacity + 1 := by omega
    obtain ⟨h1, h2⟩ := knapDown_spec w v (capacity + 1 - w) capacity dp
      (fun _ => false) hfuel
    have hlb : capacity + 1 - (capacity + 1 - w) = w := by omega
    constructor
    · intro j; rw [h1 j, hlb]
    · intro j; rw [h2 j, hlb]
  · have hfuel0 : capacity + 1 - w = 0 := by omega
    rw [hfuel0]
    constructor
    · intro j
      rw [knapDown, if_neg (by omega)]
    · intro j
      rw [knapDown, if_neg (by omega)]

lemma knapRun_append (items : List Item) (it : Item) (capacity : Nat) :
    knapRun (items ++ [it]) capacity =
      ((knapPass it.1 it.2 capacity (knapRun items capacity).1).1,
        (knapRun items capacity).2 ++
          [(knapPass it.1 it.2 capacity (knapRun items capacity).1).2]) := by
  simp only [knapRun, List.foldl_append, List.foldl_cons, List.foldl_nil]

lemma bestVal_mono (l : List Item) : ∀ {c c' : Nat}, c ≤ c' → bestVal l c ≤ bestVal l c' := by
  induction l with
  | nil => intro c c' _; simp [bestVal]
  | cons it rest ih =>
    intro c c' h
    obtain ⟨w, v⟩ := it
    by_cases hw : w ≤ c
    · rw [bestVal, if_pos hw, bestVal, if_pos (le_trans hw h)]
      exact max_le_max (ih h) (Nat.add_le_add_right (ih (by omega)) v)
    · by_cases hw' : w ≤ c'
      · rw [bestVal, if_neg hw, bestVal, if_pos hw']
        exact le_max_of_le_left (ih h)
      · rw [bestVal, if_neg hw, bestVal, if_neg hw']
        exact ih h

lemma dp_eq_bestVal (capacity : Nat) :
    ∀ (items : List Item) (c : Nat), c ≤ capacity →
      (knapRun items capacity).1 c = bestVal items.reverse c := by
  intro items
  induction items using List.reverseRecOn with
  | nil => intro c _; simp [knapRun, bestVal]
  | append_singleton l it ih =>
    intro c hc
    obtain ⟨w, v⟩ := it
    rw [knapRun_append]
    have hp := (knapPass_spec w v capacity (knapRun l capacity).1).1 c
    simp only at hp
    rw [hp]
    have e1 := ih c hc
    have e2 := ih (c - w) (by omega)
    rw [e1, e2]
    simp only [List.reverse_append, List.reverse_cons, List.reverse_nil,
      List.nil_append, List.singleton_append]
    rw [bestVal]
    split_ifs <;> omega

lemma bestVal_ub : ∀ (l : List Item) (c : Nat) (sel : List Bool),
    sel.length = l.length → selWeight l sel ≤ c → selValue l sel ≤ bestVal l c := by
  intro l
  induction l with
  | nil => intro c sel _ _; simp [selValue, bestVal]
  | cons it rest ih =>
    intro c sel hlen hw
    obtain ⟨w, v⟩ := it
    cases sel with
    | nil => simp at hlen
    | cons b s =>
      have hlen' : s.length = rest.length := by simpa using hlen
      cases b
      · have hw' : selWeight rest s ≤ c := by
          have : selWeight ((w, v) :: rest) (false :: s) = selWeight rest s := by
            rw [selWeight]; simp
          omega
        have hv := ih c s hlen' hw'
        have hvv : selValue ((w, v) :: rest) (false :: s) = selValue rest s := by
          rw [selValue]; simp
        rw [hvv]
        by_cases hwc : w ≤ c
        · rw [bestVal, if_pos hwc]
          exact le_max_of_le_left hv
        · rw [bestVal, if_neg hwc]
          exact hv
      · have hwts : selWeight ((w, v) :: rest) (true :: s) = w + selWeight rest s := by
          rw [selWeight]; simp
        have hwc : w ≤ c := by omega
        have hw' : selWeight rest s ≤ c - w := by omega
        have hv := ih (c - w) s hlen' hw'
        have hvv : selValue ((w, v) :: rest) (true :: s) = v + selValue rest s := by
          rw [selValue]; simp
        rw [hvv, bestVal, if_pos hwc]
        have : v + selValue rest s ≤ bestVal rest (c - w) + v := by omega
        exact le_max_of_le_right this

lemma bestVal_achieved : ∀ (l : List Item) (c : Nat),
    ∃ sel, sel.length = l.length ∧ selWeight l sel ≤ c ∧
      selValue l sel = bestVal l c := by
  intro l
  induction l with
  | nil =>
    intro c
    exact ⟨[], rfl, by simp [selWeight], by simp [selValue, bestVal]⟩
  | cons it rest ih =>
    intro c
    obtain ⟨w, v⟩ := it
    by_cases hw : w ≤ c
    · obtain ⟨s1, hl1, hw1, hv1⟩ := ih c
      obtain ⟨s2, hl2, hw2, hv2⟩ := ih (c - w)
      rcases le_or_lt (bestVal rest (c - w) + v) (bestVal rest c) with hcmp | hcmp
      · refine ⟨false :: s1, by simp [hl1], ?_, ?_⟩
        · rw [selWeight]; simpa using hw1
        · rw [selValue, bestVal, if_pos hw]
          show 0 + selValue rest s1 = max (bestVal rest c) (bestVal rest (c - w) + v)
          omega
      · refine ⟨true :: s2, by simp [hl2], ?_, ?_⟩
        · rw [selWeight]
          show w + selWeight rest s2 ≤ c
          omega
        · rw [selValue, bestVal, if_pos hw]
          show v + selValue rest s2 = max (bestVal rest c) (bestVal rest (c - w) + v)
          omega
    · obtain ⟨s1, hl1, hw1, hv1⟩ := ih c
      refine ⟨false :: s1, by simp [hl1], ?_, ?_⟩
      · rw [selWeight]; simpa using hw1
      · rw [selValue, bestVal, if_neg hw]
        simpa using hv1

lemma perm_sel {l l' : List Item} (h : l.Perm l') :
    ∀ sel, sel.length = l.length →
      ∃ sel', sel'.length = l'.length ∧ selWeight l' sel' = selWeight l sel ∧
        selValue l' sel' = selValue l sel := by
  induction h with
  | nil => intro sel hlen; exact ⟨sel, hlen, rfl, rfl⟩
  | cons x h' ih =>
    intro sel hlen
    cases sel with
    | nil => simp at hlen
    | cons b s =>
      obtain ⟨w, v⟩ := x
      obtain ⟨s', hl, hwq, hvq⟩ := ih s (by simpa using hlen)
      refine ⟨b :: s', by simp [hl], ?_, ?_⟩
      · rw [selWeight, selWeight, hwq]
      · rw [selValue, selValue, hvq]
  | swap x y tail =>
    intro sel hlen
    obtain ⟨wx, vx⟩ := x
    obtain ⟨wy, vy⟩ := y
    cases sel with
    | nil => simp at hlen
    | cons b1 s1 =>
      cases s1 with
      | nil => simp at hlen
      | cons b2 s2 =>
        refine ⟨b2 :: b1 :: s2, by simpa using hlen, ?_, ?_⟩
        · rw [selWeight, selWeight, selWeight, selWeight]
          omega
        · rw [selValue, selValue, selValue, selValue]
          omega
  | trans h1 h2 ih1 ih2 =>
    intro sel hlen
    obtain ⟨s1, hl1, hw1, hv1⟩ := ih1 sel hlen
    obtain ⟨s2, hl2, hw2, hv2⟩ := ih2 s1 hl1
    exact ⟨s2, hl2, hw2.trans hw1, hv2.trans hv1⟩

lemma bestVal_perm {l l' : List Item} (h : l.Perm l') (c : Nat) :
    bestVal l c = bestVal l' c := by
  apply le_antisymm
  · obtain ⟨sel, hl, hw, hv⟩ := bestVal_achieved l c
    obtain ⟨sel', hl', hw', hv'⟩ := perm_sel h sel hl
    calc bestVal l c = selValue l' sel' := by rw [hv', hv]
    _ ≤ bestVal l' c := bestVal_ub l' c sel' hl' (by rw [hw']; exact hw)
  · obtain ⟨sel, hl, hw, hv⟩ := bestVal_achieved l' c
    obtain ⟨sel', hl', hw', hv'⟩ := perm_sel h.symm sel hl
    calc bestVal l' c = selValue l sel' := by rw [hv', hv]
    _ ≤ bestVal l c := bestVal_ub l c sel' hl' (by rw [hw']; exact hw)

lemma bestCapacity_spec (dp : Nat → Nat) (capacity : Nat) :
    bestCapacity dp capacity ≤ capacity ∧
      ∀ c ≤ capacity, dp c ≤ dp (bestCapacity dp capacity) := by
  have H : ∀ (l : List Nat) (b : Nat),
      ((l.foldl (fun b c => if dp b < dp c then c else b) b) = b ∨
        (l.foldl (fun b c => if dp b < dp c then c else b) b) ∈ l) ∧
      dp b ≤ dp (l.foldl (fun b c => if dp b < dp c then c else b) b) ∧
      ∀ x ∈ l, dp x ≤ dp (l.foldl (fun b c => if dp b < dp c then c else b) b) := by
    intro l
    induction l with
    | nil => intro b; exact ⟨Or.inl rfl, le_refl _, by simp⟩
    | cons a t ih =>
      intro b
      simp only [List.foldl_cons]
      by_cases hab : dp b < dp a
      · rw [if_pos hab]
        obtain ⟨hmem, hle, hall⟩ := ih a
        refine ⟨?_, le_trans (le_of_lt hab) hle, ?_⟩
        · rcases hmem with hm | hm
          · exact Or.inr (by rw [hm]; exact List.mem_cons_self a t)
          · exact Or.inr (List.mem_cons_of_mem a hm)
        · intro x hx
          rcases List.mem_cons.mp hx with rfl | hx'
          · exact hle
          · exact hall x hx'
      · rw [if_neg hab]
        obtain ⟨hmem, hle, hall⟩ := ih b
        refine ⟨?_, hle, ?_⟩
        · rcases hmem with hm | hm
          · exact Or.inl hm
          · exact Or.inr (List.mem_cons_of_mem a hm)
        · intro x hx
          rcases List.mem_cons.mp hx with rfl | hx'
          · exact le_trans (le_of_not_lt hab) hle
          · exact hall x hx'
  obtain ⟨hmem, hle, hall⟩ := H (List.range (capacity + 1)) 0
  constructor
  · rcases hmem with hm | hm
    · rw [bestCapacity, hm]; omega
    · have := List.mem_range.mp hm
      rw [bestCapacity]; omega
  · intro c hc
    exact hall c (List.mem_range.mpr (by omega))

lemma solve_knapsack_fst (items : List Item) (capacity : Nat) :
    (solve_knapsack_dp items capacity).1 = bestVal items capacity := by
  have h1 : (solve_knapsack_dp items capacity).1 =
      (knapRun items capacity).1 (bestCapacity (knapRun items capacity).1 capacity) := rfl
  obtain ⟨hbc, hmax⟩ := bestCapacity_spec (knapRun items capacity).1 capacity
  have e1 := dp_eq_bestVal capacity items _ hbc
  have e2 := dp_eq_bestVal capacity items capacity (le_refl _)
  have hrev : bestVal items.reverse capacity = bestVal items capacity :=
    bestVal_perm (List.reverse_perm items) capacity
  have hval : (knapRun items capacity).1
      (bestCapacity (knapRun items capacity).1 capacity) =
      bestVal items.reverse capacity := by
    apply le_antisymm
    · rw [e1]; exact bestVal_mono _ hbc
    · rw [← e2]; exact hmax capacity (le_refl _)
  rw [h1, hval, hrev]

/-- C2. The first component of `solve_knapsack_dp` is the exact 0/1-knapsack
optimum: it dominates the value of every feasible selection, is attained by
some feasible selection, and is invariant under permuting the item list. -/
theorem solve_knapsack_dp_value_correct (items : List Item) (capacity : Nat) :
    (∀ sel, sel.length = items.length → selWeight items sel ≤ capacity →
        selValue items sel ≤ (solve_knapsack_dp items capacity).1) ∧
    (∃ sel, sel.length = items.length ∧ selWeight items sel ≤ capacity ∧
        selValue items sel = (solve_knapsack_dp items capacity).1) ∧
    (∀ items', items.Perm items' →
        (solve_knapsack_dp items' capacity).1 = (solve_knapsack_dp items capacity).1) := by
  refine ⟨?_, ?_, ?_⟩
  · intro sel hl hw
    rw [solve_knapsack_fst]
    exact bestVal_ub items capacity sel hl hw
  · obtain ⟨sel, hl, hw, hv⟩ := bestVal_achieved items capacity
    exact ⟨sel, hl, hw, by rw [solve_knapsack_fst]; exact hv⟩
  · intro items' hperm
    rw [solve_knapsack_fst, solve_knapsack_fst]
    exact bestVal_perm hperm.symm capacity

/-- Witness for C2 at a concrete instance: two items `(weight 2, value 3)` and
`(weight 1, value 5)` with capacity 2: the optimum 5 picks only the second. -/
theorem solve_knapsack_dp_value_correct_witness :
    selValue [(2, 3), (1, 5)] [false, true] ≤ (solve_knapsack_dp [(2, 3), (1, 5)] 2).1 :=
  (solve_knapsack_dp_value_correct [(2, 3), (1, 5)] 2).1 [false, true]
    (by decide) (by decide)

lemma knapRun_keep_length (capacity : Nat) :
    ∀ items : List Item, (knapRun items capacity).2.length = items.length := by
  intro items
  induction items using List.reverseRecOn with
  | nil => rfl
  | append_singleton l it ih =>
    rw [knapRun_append]
    simp [ih]

lemma getD_append_lt {α : Type} (l l' : List α) (i : Nat) (d : α) (h : i < l.length) :
    (l ++ l').getD i d = l.getD i d := by
  simp [List.getD, List.getElem?_append, h, List.getElem?_eq_getElem h]

lemma idx_append_eq (l : List Item) (it : Item) :
    ∀ idxs : List Nat, (∀ i ∈ idxs, i < l.length) →
      idxWeight (l ++ [it]) idxs = idxWeight l idxs ∧
      idxValue (l ++ [it]) idxs = idxValue l idxs := by
  intro idxs h
  constructor
  · rw [idxWeight, idxWeight]
    congr 1
    apply List.map_congr_left
    intro i hi
    rw [getD_append_lt l [it] i (0, 0) (h i hi)]
  · rw [idxValue, idxValue]
    congr 1
    apply List.map_congr_left
    intro i hi
    rw [getD_append_lt l [it] i (0, 0) (h i hi)]

lemma keepRows_append (l : List Item) (w v : Nat) (capacity : Nat) :
    keepRows (l ++ [(w, v)]) capacity =
      (l.length, (w, v), (knapPass w v capacity (knapRun l capacity).1).2) ::
        keepRows l capacity := by
  rw [keepRows, keepRows, knapRun_append]
  have henum : (l ++ [(w, v)]).enum = l.enum ++ [(l.length, (w, v))] := by
    simp [List.enum_append]
  rw [henum]
  have hlen : l.enum.length = (knapRun l capacity).2.length := by
    rw [List.enum_length, knapRun_keep_length]
  rw [List.zip_append hlen]
  simp

lemma reconLoop_correct (capacity : Nat) :
    ∀ (items : List Item) (c : Nat), c ≤ capacity →
      (reconLoop (keepRows items capacity) c).Chain' (· > ·) ∧
      (∀ i ∈ reconLoop (keepRows items capacity) c, i < items.length) ∧
      idxWeight items (reconLoop (keepRows items capacity) c) ≤ c ∧
      idxValue items (reconLoop (keepRows items capacity) c) =
        (knapRun items capacity).1 c := by
  intro items
  induction items using List.reverseRecOn with
  | nil =>
    intro c _
    refine ⟨by simp [keepRows, reconLoop], by simp [keepRows, reconLoop], ?_, ?_⟩
    · simp [keepRows, reconLoop, idxWeight]
    · simp [keepRows, reconLoop, idxValue, knapRun]
  | append_singleton l it ih =>
    intro c hc
    obtain ⟨w, v⟩ := it
    rw [keepRows_append, reconLoop]
    have hrow := (knapPass_spec w v capacity (knapRun l capacity).1).2 c
    have hdp := (knapPass_spec w v capacity (knapRun l capacity).1).1 c
    have hfst : (knapRun (l ++ [(w, v)]) capacity).1 = (knapPass w v capacity (knapRun l capacity).1).1 := by
      rw [knapRun_append]
    by_cases hcond : w ≤ c ∧ c ≤ capacity ∧
        (knapRun l capacity).1 c < (knapRun l capacity).1 (c - w) + v
    · rw [if_pos hcond] at hrow hdp
      rw [hrow]
      simp only [if_true]
      obtain ⟨hch, hmem, hwt, hvl⟩ := ih (c - w) (by omega)
      have hbound : ∀ i ∈ reconLoop (keepRows l capacity) (c - w), i < l.length := hmem
      obtain ⟨hwe, hve⟩ := idx_append_eq l (w, v) _ hbound
      refine ⟨?_, ?_, ?_, ?_⟩
      · rw [List.chain'_cons']
        exact ⟨fun b hb => hbound b (List.mem_of_mem_head? hb), hch⟩
      · intro i hi
        rcases List.mem_cons.mp hi with rfl | hi'
        · simp
        · have := hbound i hi'
          simp only [List.length_append, List.length_cons, List.length_nil]
          omega
      · rw [idxWeight, List.map_cons, List.sum_cons]
        have hgd : ((l ++ [(w, v)]).getD l.length (0, 0)).1 = w := by
          simp [List.getD]
        have : idxWeight (l ++ [(w, v)]) (reconLoop (keepRows l capacity) (c - w)) ≤ c - w := by
          rw [hwe]; exact hwt
        rw [idxWeight] at this
        rw [hgd]
        omega
      · rw [idxValue, List.map_cons, List.sum_cons]
        have hgd : ((l ++ [(w, v)]).getD l.length (0, 0)).2 = v := by
          simp [List.getD]
        have hlv : idxValue (l ++ [(w, v)]) (reconLoop (keepRows l capacity) (c - w)) =
            (knapRun l capacity).1 (c - w) := by
          rw [hve]; exact hvl
        rw [idxValue] at hlv
        rw [hgd, hfst, hdp, hlv]
        omega
    · rw [if_neg hcond] at hrow hdp
      rw [hrow]
      simp only [Bool.false_eq_true, if_false]
      obtain ⟨hch, hmem, hwt, hvl⟩ := ih c hc
      obtain ⟨hwe, hve⟩ := idx_append_eq l (w, v) _ hmem
      refine ⟨hch, ?_, ?_, ?_⟩
      · intro i hi
        have := hmem i hi
        simp only [List.length_append, List.length_cons, List.length_nil]
        omega
      · rw [hwe]; exact hwt
      · rw [hve, hfst, hdp]; exact hvl

/-- C5. The picked index list returned by `solve_knapsack_dp` is strictly
increasing over valid indices, its total weight is bounded by the maximizing
capacity `best_c` (itself at most `capacity`), and its total value equals the
returned best value. -/
theorem solve_knapsack_dp_picked_correct (items : List Item) (capacity : Nat) :
    (solve_knapsack_dp items capacity).2.Chain' (· < ·) ∧
    (∀ i ∈ (solve_knapsack_dp items capacity).2, i < items.length) ∧
    idxWeight items (solve_knapsack_dp items capacity).2 ≤
      bestCapacity (knapRun items capacity).1 capacity ∧
    bestCapacity (knapRun items capacity).1 capacity ≤ capacity ∧
    idxValue items (solve_knapsack_dp items capacity).2 =
      (solve_knapsack_dp items capacity).1 := by
  have hbc := (bestCapacity_spec (knapRun items capacity).1 capacity).1
  have hsnd : (solve_knapsack_dp items capacity).2 =
      (reconLoop (keepRows items capacity)
        (bestCapacity (knapRun items capacity).1 capacity)).reverse := rfl
  have hfst : (solve_knapsack_dp items capacity).1 =
      (knapRun items capacity).1 (bestCapacity (knapRun items capacity).1 capacity) := rfl
  obtain ⟨hch, hmem, hwt, hvl⟩ :=
    reconLoop_correct capacity items (bestCapacity (knapRun items capacity).1 capacity) hbc
  refine ⟨?_, ?_, ?_, hbc, ?_⟩
  · rw [hsnd, List.chain'_reverse]
    exact hch
  · intro i hi
    rw [hsnd, List.mem_reverse] at hi
    exact hmem i hi
  · rw [hsnd, idxWeight, List.map_reverse, List.sum_reverse]
    rw [idxWeight] at hwt
    exact hwt
  · rw [hsnd, hfst, idxValue, List.map_reverse, List.sum_reverse]
    rw [idxValue] at hvl
    exact hvl

/-- Witness for C5 at a concrete instance: the value of the reconstructed set
equals the reported best value. -/
theorem solve_knapsack_dp_picked_correct_witness :
    idxValue [(2, 3), (1, 5)] (solve_knapsack_dp [(2, 3), (1, 5)] 2).2 =
      (solve_knapsack_dp [(2, 3), (1, 5)] 2).1 :=
  (solve_knapsack_dp_picked_correct [(2, 3), (1, 5)] 2).2.2.2.2

lemma buildCover_length (n : Nat) (chosen : List Nat) :
    (buildCover n chosen).length = n := by
  rw [buildCover]
  have H : ∀ (l : List Nat) (cov : List Bool),
      (l.foldl (fun cov i => cov.set i true) cov).length = cov.length := by
    intro l
    induction l with
    | nil => intro cov; rfl
    | cons a t ih =>
      intro cov
      rw [List.foldl_cons, ih, List.length_set]
  rw [H, List.length_replicate]

lemma count_true_set_le (cov : List Bool) (i : Nat) :
    (cov.set i true).count true ≤ cov.count true + 1 := by
  induction cov generalizing i with
  | nil => simp
  | cons c t ih =>
    cases i with
    | zero =>
      simp only [List.set_cons_zero, List.count_cons]
      cases c <;> simp
    | succ j =>
      simp only [List.set_cons_succ, List.count_cons]
      have := ih j
      omega

lemma buildCover_count (n : Nat) (chosen : List Nat) :
    (buildCover n chosen).count true ≤ chosen.length := by
  rw [buildCover]
  have H : ∀ (l : List Nat) (cov : List Bool),
      (l.foldl (fun cov i => cov.set i true) cov).count true ≤
        cov.count true + l.length := by
    intro l
    induction l with
    | nil => intro cov; simp
    | cons a t ih =>
      intro cov
      rw [List.foldl_cons]
      have h1 := ih (cov.set a true)
      have h2 := count_true_set_le cov a
      simp only [List.length_cons]
      omega
  have := H chosen (List.replicate n false)
  have hrep : (List.replicate n false).count true = 0 := by
    simp [List.count_replicate]
  omega

lemma getD_set_bool (cov : List Bool) (i j : Nat) (x : Bool) :
    (cov.set i x).getD j false =
      if j = i ∧ i < cov.length then x else cov.getD j false := by
  induction cov generalizing i j with
  | nil => simp
  | cons c t ih =>
    cases i with
    | zero =>
      cases j with
      | zero => simp
      | succ j' => simp [List.getD_cons_succ]
    | succ i' =>
      cases j with
      | zero => simp [List.getD_cons_zero]
      | succ j' =>
        simp only [List.set_cons_succ, List.getD_cons_succ, ih i' j']
        by_cases h : j' = i' ∧ i' < t.length
        · rw [if_pos h, if_pos (by simp only [List.length_cons]; omega)]
        · rw [if_neg h, if_neg (by simp only [List.length_cons]; omega)]

lemma buildCover_getD (n : Nat) (chosen : List Nat) (j : Nat) :
    (buildCover n chosen).getD j false = true ↔ j ∈ chosen ∧ j < n := by
  rw [buildCover]
  have H : ∀ (l : List Nat) (cov : List Bool),
      (l.foldl (fun cov i => cov.set i true) cov).getD j false = true ↔
        (j ∈ l ∧ j < cov.length) ∨ cov.getD j false = true := by
    intro l
    induction l with
    | nil => intro cov; simp
    | cons a t ih =>
      intro cov
      rw [List.foldl_cons, ih (cov.set a true), List.length_set,
        getD_set_bool cov a j true]
      constructor
      · rintro (⟨hm, hl⟩ | hset)
        · exact Or.inl ⟨List.mem_cons_of_mem a hm, hl⟩
        · by_cases hj : j = a ∧ a < cov.length
          · rw [if_pos hj] at hset
            exact Or.inl ⟨by rw [hj.1]; exact List.mem_cons_self a t, by omega⟩
          · rw [if_neg hj] at hset
            exact Or.inr hset
      · rintro (⟨hm, hl⟩ | hcov)
        · rcases List.mem_cons.mp hm with rfl | hm'
          · exact Or.inr (by rw [if_pos ⟨rfl, hl⟩])
          · exact Or.inl ⟨hm', hl⟩
        · right
          by_cases hj : j = a ∧ a < cov.length
          · rw [if_pos hj]
          · rw [if_neg hj]; exact hcov
  rw [H chosen (List.replicate n false)]
  have h1 : (List.replicate n false).getD j false = false := by
    rw [List.getD_eq_getElem?_getD, List.getElem?_replicate]
    split_ifs <;> rfl
  rw [h1, List.length_replicate]
  simp

lemma covers_all_congr (edges : List Edge) (c1 c2 : List Bool)
    (h : ∀ j, c1.getD j false = c2.getD j false) :
    _covers_all edges c1 = _covers_all edges c2 := by
  rw [_covers_all, _covers_all]
  congr 1
  funext e
  rw [h e.1, h e.2]

lemma vcRec_sound (edges : List Edge) (n k : Nat) :
    ∀ (fuel start : Nat) (chosen : List Nat) (cover : List Bool),
      vcRec edges n k fuel start chosen = some cover →
      cover.length = n ∧ cover.count true ≤ k ∧ _covers_all edges cover = true := by
  intro fuel
  induction fuel with
  | zero =>
    intro start chosen cover h
    rw [vcRec] at h
    by_cases hk : k < chosen.length
    · rw [if_pos hk] at h; exact Option.noConfusion h
    · rw [if_neg hk] at h
      by_cases hcov : _covers_all edges (buildCover n chosen) = true
      · simp only [hcov, if_true] at h
        have hc : buildCover n chosen = cover := by injection h
        subst hc
        refine ⟨buildCover_length n chosen, ?_, hcov⟩
        have := buildCover_count n chosen
        omega
      · simp only [hcov, if_false] at h
        exact Option.noConfusion h
  | succ f ih =>
    intro start chosen cover h
    rw [vcRec] at h
    by_cases hk : k < chosen.length
    · rw [if_pos hk] at h; exact Option.noConfusion h
    · rw [if_neg hk] at h
      rcases hrec : vcRec edges n k f (start + 1) chosen with _ | out
      · rw [hrec] at h
        exact ih (start + 1) (chosen ++ [start]) cover h
      · rw [hrec] at h
        have hoc : some out = some cover := h
        cases hoc
        exact ih (start + 1) chosen cover hrec

lemma vcRec_complete (edges : List Edge) (n k : Nat) :
    ∀ (fuel start : Nat) (chosen : List Nat) (ext : List Nat),
      chosen.length + ext.length ≤ k →
      ext.Pairwise (· < ·) →
      (∀ i ∈ ext, start ≤ i ∧ i < start + fuel) →
      _covers_all edges (buildCover n (chosen ++ ext)) = true →
      vcRec edges n k fuel start chosen ≠ none := by
  intro fuel
  induction fuel with
  | zero =>
    intro start chosen ext hlen _ hbnd hcov
    have hext : ext = [] := by
      rcases ext with _ | ⟨a, t⟩
      · rfl
      · have := hbnd a (List.mem_cons_self a t)
        omega
    subst hext
    rw [List.append_nil] at hcov
    rw [vcRec, if_neg (by simp at hlen; omega)]
    simp only [hcov, if_true]
    exact Option.noConfusion
  | succ f ih =>
    intro start chosen ext hlen hsort hbnd hcov
    rw [vcRec, if_neg (by omega)]
    by_cases hmem : start ∈ ext
    · obtain ⟨a, t, rfl⟩ : ∃ a t, ext = a :: t := by
        rcases ext with _ | ⟨a, t⟩
        · simp at hmem
        · exact ⟨a, t, rfl⟩
      have hstart_a : a = start := by
        rcases List.mem_cons.mp hmem with h | h
        · exact h.symm
        · have h1 := (List.pairwise_cons.mp hsort).1 start h
          have h2 := (hbnd a (List.mem_cons_self a t)).1
          omega
      subst hstart_a
      rcases hrec : vcRec edges n k f (a + 1) chosen with _ | out
      · have happ : (chosen ++ [a]) ++ t = chosen ++ a :: t := by
          rw [List.append_assoc]; rfl
        have := ih (a + 1) (chosen ++ [a]) t
          (by simp at hlen ⊢; omega)
          (List.pairwise_cons.mp hsort).2
          (by
            intro i hi
            have hb := hbnd i (List.mem_cons_of_mem a hi)
            have hlt := (List.pairwise_cons.mp hsort).1 i hi
            omega)
          (by rw [happ]; exact hcov)
        intro hcontr
        exact this hcontr
      · exact fun hcontr => Option.noConfusion hcontr
    · rcases hrec : vcRec edges n k f (start + 1) chosen with _ | out
      · exfalso
        refine ih (start + 1) chosen ext (by omega) hsort ?_ hcov hrec
        intro i hi
        have := hbnd i hi
        have : start ≠ i := fun h => hmem (h ▸ hi)
        omega
      · exact fun hcontr => Option.noConfusion hcontr

lemma filter_range_count (cover : List Bool) :
    ((List.range cover.length).filter (fun j => cover.getD j false)).length =
      cover.count true := by
  induction cover with
  | nil => rfl
  | cons b t ih =>
    rw [List.length_cons, List.range_succ_eq_map]
    rw [List.filter_cons]
    have hmap : ((List.range t.length).map Nat.succ).filter
        (fun j => (b :: t).getD j false) =
        ((List.range t.length).filter (fun j => t.getD j false)).map Nat.succ := by
      rw [List.filter_map]
      congr 1
    have hget0 : ((b :: t).getD 0 false) = b := rfl
    rw [hget0, hmap]
    cases b
    · rw [if_neg (by simp), List.length_map, ih, List.count_cons]
      rfl
    · rw [if_pos rfl, List.length_cons, List.length_map, ih, List.count_cons]
      rfl

/-- C3. The vertex-cover search is complete: it returns a cover iff some
vertex cover of size at most `k` exists, and every returned cover has length
`n`, marks at most `k` vertices `True`, and passes `_covers_all` on the same
edge list. -/
theorem solve_vertex_cover_bruteforce_correct (edges : List Edge) (n k : Nat)
    (_he : ∀ e ∈ edges, e.1 < n ∧ e.2 < n) :
    (∀ cover, solve_vertex_cover_bruteforce edges n k = some cover →
        cover.length = n ∧ cover.count true ≤ k ∧
          _covers_all edges cover = true) ∧
    ((∃ cover, solve_vertex_cover_bruteforce edges n k = some cover) ↔
      (∃ cover : List Bool, cover.length = n ∧ cover.count true ≤ k ∧
        _covers_all edges cover = true)) := by
  constructor
  · intro cover h
    exact vcRec_sound edges n k n 0 [] cover h
  · constructor
    · rintro ⟨cover, h⟩
      exact ⟨cover, vcRec_sound edges n k n 0 [] cover h⟩
    · rintro ⟨cover, hlen, hcnt, hcov⟩
      have hne : vcRec edges n k n 0 [] ≠ none := by
        apply vcRec_complete edges n k n 0 []
          ((List.range cover.length).filter (fun j => cover.getD j false))
        · rw [List.length_nil, filter_range_count]
          omega
        · exact List.Pairwise.filter _ (List.pairwise_lt_range _)
        · intro i hi
          have := List.mem_range.mp (List.mem_of_mem_filter hi)
          omega
        · rw [List.nil_append]
          have hpt : ∀ j, (buildCover n
              ((List.range cover.length).filter (fun j => cover.getD j false))).getD
                j false = cover.getD j false := by
            intro j
            have hiff : ((buildCover n ((List.range cover.length).filter
                (fun j => cover.getD j false))).getD j false = true) ↔
                (cover.getD j false = true) := by
              rw [buildCover_getD]
              constructor
              · rintro ⟨hmem, _⟩
                have hp := List.of_mem_filter hmem
                exact hp
              · intro htrue
                have hjlen : j < cover.length := by
                  by_contra hge
                  have hfalse : cover.getD j false = false := by
                    rw [List.getD_eq_getElem?_getD, List.getElem?_eq_none (by omega)]
                    rfl
                  rw [hfalse] at htrue
                  exact Bool.noConfusion htrue
                refine ⟨List.mem_filter.mpr ⟨List.mem_range.mpr hjlen, htrue⟩, ?_⟩
                omega
            cases h1 : (buildCover n ((List.range cover.length).filter
                (fun j => cover.getD j false))).getD j false
            · cases h2 : cover.getD j false
              · rfl
              · have := hiff.mpr h2
                rw [h1] at this
                exact Bool.noConfusion this
            · cases h2 : cover.getD j false
              · have := hiff.mp h1
                rw [h2] at this
                exact Bool.noConfusion this
              · rfl
          rw [covers_all_congr edges _ cover hpt]
          exact hcov
      rcases hres : vcRec edges n k n 0 [] with _ | out
      · exact absurd hres hne
      · exact ⟨out, hres⟩

/-- Witness for C3: the single-edge graph on 2 vertices has a cover of size 1,
and the solver indeed returns one. -/
theorem solve_vertex_cover_bruteforce_correct_witness :
    ∃ cover, solve_vertex_cover_bruteforce [(0, 1)] 2 1 = some cover :=
  (solve_vertex_cover_bruteforce_correct [(0, 1)] 2 1 (by decide)).2.mpr
    ⟨[true, false], by decide, by decide, by decide⟩

lemma _dist_symm (a b : Point) : _dist a b = _dist b a := by
  rw [_dist, _dist]
  ring_nf

lemma headD_eq_getD (l : List Point) : l.headD (0, 0) = l.getD 0 (0, 0) := by
  cases l <;> rfl

lemma getLastD_cons_cons (a b : Point) (t : List Point) (d : Point) :
    (a :: b :: t).getLastD d = (b :: t).getLastD d := by
  rw [List.getLastD_eq_getLast?, List.getLastD_eq_getLast?, List.getLast?_cons_cons]

lemma getLastD_eq_getD (l : List Point) (h : l ≠ []) :
    l.getLastD (0, 0) = l.getD (l.length - 1) (0, 0) := by
  induction l with
  | nil => exact absurd rfl h
  | cons a t ih =>
    cases t with
    | nil => rfl
    | cons b t' =>
      rw [getLastD_cons_cons, ih (by simp)]
      rfl

lemma getD_take (l : List Point) (m j : Nat) (hj : j < m) :
    (l.take m).getD j (0, 0) = l.getD j (0, 0) := by
  rw [List.getD_eq_getElem?_getD, List.getD_eq_getElem?_getD,
    List.getElem?_take_of_lt hj]

lemma getD_drop (l : List Point) (m j : Nat) :
    (l.drop m).getD j (0, 0) = l.getD (m + j) (0, 0) := by
  rw [List.getD_eq_getElem?_getD, List.getD_eq_getElem?_getD, List.getElem?_drop]

lemma headD_reverse (l : List Point) : l.reverse.headD (0, 0) = l.getLastD (0, 0) := by
  rw [List.headD_eq_head?_getD, List.head?_reverse, List.getLastD_eq_getLast?]

lemma getLastD_reverse (l : List Point) :
    l.reverse.getLastD (0, 0) = l.headD (0, 0) := by
  have := headD_reverse l.reverse
  rw [List.reverse_reverse] at this
  exact this.symm

lemma adjSum_cons_cons (a b : Point) (rest : List Point) :
    adjSum (a :: b :: rest) = _dist a b + adjSum (b :: rest) := rfl

lemma adjSum_append (xs ys : List Point) (hx : xs ≠ []) (hy : ys ≠ []) :
    adjSum (xs ++ ys) =
      adjSum xs + _dist (xs.getLastD (0, 0)) (ys.headD (0, 0)) + adjSum ys := by
  induction xs with
  | nil => exact absurd rfl hx
  | cons a t ih =>
    cases t with
    | nil =>
      cases ys with
      | nil => exact absurd rfl hy
      | cons y ys' =>
        rw [List.singleton_append, adjSum_cons_cons]
        have h1 : adjSum [a] = 0 := rfl
        have h2 : ([a] : List Point).getLastD (0, 0) = a := rfl
        have h3 : (y :: ys').headD (0, 0) = y := rfl
        rw [h1, h2, h3]
        ring
    | cons b t' =>
      have hbt : (b :: t') ≠ [] := by simp
      rw [List.cons_append, List.cons_append]
      have hcons : adjSum (a :: b :: (t' ++ ys)) =
          _dist a b + adjSum (b :: (t' ++ ys)) := rfl
      rw [hcons]
      have ihb : adjSum (b :: (t' ++ ys)) =
          adjSum (b :: t') + _dist ((b :: t').getLastD (0, 0)) (ys.headD (0, 0)) +
            adjSum ys := ih hbt
      rw [ihb, adjSum_cons_cons, getLastD_cons_cons]
      ring

lemma adjSum_reverse (l : List Point) : adjSum l.reverse = adjSum l := by
  induction l with
  | nil => rfl
  | cons a t ih =>
    cases t with
    | nil => rfl
    | cons b t' =>
      rw [List.reverse_cons]
      have hbt : (b :: t').reverse ≠ [] := by simp
      rw [adjSum_append _ [a] hbt (by simp)]
      have h1 : adjSum [a] = 0 := rfl
      have h2 : ([a] : List Point).headD (0, 0) = a := rfl
      rw [h1, h2, ih, getLastD_reverse]
      have h3 : (b :: t').headD (0, 0) = b := rfl
      rw [h3, adjSum_cons_cons, _dist_symm b a]
      ring

lemma adjSum_eq_sum (P : List Point) :
    adjSum P = Finset.sum (Finset.range (P.length - 1)) fun i =>
      _dist (P.getD i (0, 0)) (P.getD (i + 1) (0, 0)) := by
  induction P with
  | nil => simp [adjSum]
  | cons a t ih =>
    cases t with
    | nil => simp [adjSum]
    | cons b t' =>
      rw [adjSum_cons_cons, ih]
      have hlen : (a :: b :: t').length - 1 = ((b :: t').length - 1) + 1 := by
        simp
      rw [hlen, Finset.sum_range_succ']
      simp only [List.getD_cons_succ, List.getD_cons_zero]
      ring

lemma getD_map_lt (f : Nat → Point) (l : List Nat) (j : Nat) (hj : j < l.length) :
    (l.map f).getD j (0, 0) = f (l.getD j 0) := by
  rw [List.getD_eq_getElem?_getD, List.getElem?_map, List.getD_eq_getElem?_getD,
    List.getElem?_eq_getElem hj]
  rfl

lemma tourPt_eq_getD (points : List Point) (tour : List Nat) (j : Nat)
    (hj : j < tour.length) :
    tourPt points tour j =
      (tour.map fun ix => points.getD ix (0, 0)).getD j (0, 0) := by
  rw [getD_map_lt _ tour j hj]
  rfl

lemma tsp_tour_length_eq_cycLen (points : List Point) (tour : List Nat) :
    tsp_tour_length points tour =
      cycLen (tour.map fun ix => points.getD ix (0, 0)) := by
  rcases Nat.eq_zero_or_pos tour.length with h0 | hpos
  · have hnil : tour = [] := List.length_eq_zero.mp h0
    subst hnil
    simp [tsp_tour_length, cycLen, adjSum]
  · obtain ⟨m, hm⟩ : ∃ m, tour.length = m + 1 := ⟨tour.length - 1, by omega⟩
    have hPlen : (tour.map fun ix => points.getD ix (0, 0)).length = m + 1 := by
      rw [List.length_map, hm]
    have hPne : (tour.map fun ix => points.getD ix (0, 0)) ≠ [] := by
      intro hc
      rw [hc] at hPlen
      exact absurd hPlen (by simp)
    rw [tsp_tour_length, hm, Finset.sum_range_succ]
    have hmain : ∀ i ∈ Finset.range m,
        _dist (tourPt points tour i) (tourPt points tour ((i + 1) % (m + 1))) =
        _dist ((tour.map fun ix => points.getD ix (0, 0)).getD i (0, 0))
          ((tour.map fun ix => points.getD ix (0, 0)).getD (i + 1) (0, 0)) := by
      intro i hi
      have hi' := Finset.mem_range.mp hi
      rw [Nat.mod_eq_of_lt (by omega)]
      rw [tourPt_eq_getD points tour i (by omega), tourPt_eq_getD points tour (i + 1) (by omega)]
    rw [Finset.sum_congr rfl hmain]
    have hlast : _dist (tourPt points tour m)
        (tourPt points tour ((m + 1) % (m + 1))) =
        _dist ((tour.map fun ix => points.getD ix (0, 0)).getD m (0, 0))
          ((tour.map fun ix => points.getD ix (0, 0)).getD 0 (0, 0)) := by
      rw [Nat.mod_self]
      rw [tourPt_eq_getD points tour m (by omega), tourPt_eq_getD points tour 0 (by omega)]
    rw [hlast, cycLen, adjSum_eq_sum, hPlen]
    rw [if_neg (by omega)]
    rw [getLastD_eq_getD _ hPne, headD_eq_getD, hPlen]
    have : m + 1 - 1 = m := by omega
    rw [this]

lemma headD_append (xs ys : List Point) (hx : xs ≠ []) :
    (xs ++ ys).headD (0, 0) = xs.headD (0, 0) := by
  cases xs with
  | nil => exact absurd rfl hx
  | cons a t => rfl

lemma getLastD_append (xs ys : List Point) (hy : ys ≠ []) :
    (xs ++ ys).getLastD (0, 0) = ys.getLastD (0, 0) := by
  rw [List.getLastD_eq_getLast?, List.getLastD_eq_getLast?,
    List.getLast?_append_of_ne_nil xs hy]

lemma cycLen_splice (P : List Point) (i k : Nat) (hik : i + 2 ≤ k)
    (hk : k < P.length) :
    cycLen (P.take (i + 1) ++ ((P.drop (i + 1)).take (k - i)).reverse ++ P.drop (k + 1)) =
      cycLen P -
        ((_dist (P.getD i (0, 0)) (P.getD (i + 1) (0, 0)) +
          _dist (P.getD k (0, 0)) (P.getD ((k + 1) % P.length) (0, 0))) -
         (_dist (P.getD i (0, 0)) (P.getD k (0, 0)) +
          _dist (P.getD (i + 1) (0, 0)) (P.getD ((k + 1) % P.length) (0, 0)))) := by
  set A := P.take (i + 1) with hA
  set S := (P.drop (i + 1)).take (k - i) with hS
  set B := P.drop (k + 1) with hB
  have hA_len : A.length = i + 1 := by
    rw [hA, List.length_take]; omega
  have hS_len : S.length = k - i := by
    rw [hS, List.length_take, List.length_drop]; omega
  have hB_len : B.length = P.length - (k + 1) := by
    rw [hB, List.length_drop]
  have hA_ne : A ≠ [] := by
    intro hc; rw [hc] at hA_len; simp at hA_len
  have hS_ne : S ≠ [] := by
    intro hc; rw [hc] at hS_len; simp at hS_len; omega
  have hSrev_ne : S.reverse ≠ [] := by simpa using hS_ne
  have hAS_ne : A ++ S ≠ [] := by
    intro hc; exact hA_ne (List.append_eq_nil.mp hc).1
  have hASrev_ne : A ++ S.reverse ≠ [] := by
    intro hc; exact hA_ne (List.append_eq_nil.mp hc).1
  have hsplit : P = A ++ S ++ B := by
    have h3 : (P.drop (i + 1)).drop (k - i) = P.drop (k + 1) := by
      rw [List.drop_drop]
      congr 1
      omega
    have h2 : S ++ B = P.drop (i + 1) := by
      rw [hS, hB, ← h3, List.take_append_drop]
    rw [List.append_assoc, h2, hA, List.take_append_drop]
  have hA_last : A.getLastD (0, 0) = P.getD i (0, 0) := by
    rw [getLastD_eq_getD A hA_ne, hA_len, hA]
    have h1 : i + 1 - 1 = i := by omega
    rw [h1, getD_take _ _ _ (by omega)]
  have hA_head : A.headD (0, 0) = P.getD 0 (0, 0) := by
    rw [headD_eq_getD, hA, getD_take _ _ _ (by omega)]
  have hS_head : S.headD (0, 0) = P.getD (i + 1) (0, 0) := by
    rw [headD_eq_getD, hS, getD_take _ _ _ (by omega), getD_drop]
  have hS_last : S.getLastD (0, 0) = P.getD k (0, 0) := by
    rw [getLastD_eq_getD S hS_ne, hS_len, hS, getD_take _ _ _ (by omega), getD_drop]
    congr 1
    omega
  have hP_ne : P ≠ [] := by
    intro hc
    have h0 : P.length = 0 := by rw [hc]; rfl
    omega
  have hP_len_ne : ¬ P.length = 0 := by omega
  have hP_head : P.headD (0, 0) = P.getD 0 (0, 0) := headD_eq_getD P
  have hP_last : P.getLastD (0, 0) = P.getD (P.length - 1) (0, 0) :=
    getLastD_eq_getD P hP_ne
  have hadjAS : adjSum (A ++ S) =
      adjSum A + _dist (P.getD i (0, 0)) (P.getD (i + 1) (0, 0)) + adjSum S := by
    rw [adjSum_append A S hA_ne hS_ne, hA_last, hS_head]
  have hadjASrev : adjSum (A ++ S.reverse) =
      adjSum A + _dist (P.getD i (0, 0)) (P.getD k (0, 0)) + adjSum S := by
    rw [adjSum_append A S.reverse hA_ne hSrev_ne, headD_reverse, hS_last, hA_last,
      adjSum_reverse]
  by_cases hBcase : B = []
  · -- k + 1 = P.length: the wrap edge is the one rewired
    have hkn : k + 1 = P.length := by
      rw [hBcase] at hB_len
      simp at hB_len
      omega
    have hmod : (k + 1) % P.length = 0 := by rw [hkn, Nat.mod_self]
    have hsplit2 : P = A ++ S := by
      rw [hsplit, hBcase, List.append_nil]
    have hQ : A ++ S.reverse ++ B = A ++ S.reverse := by
      rw [hBcase, List.append_nil]
    have hadjP : adjSum P =
        adjSum A + _dist (P.getD i (0, 0)) (P.getD (i + 1) (0, 0)) + adjSum S := by
      rw [← hadjAS]
      exact congrArg adjSum hsplit2
    have hPlast2 : P.getLastD (0, 0) = P.getD k (0, 0) := by
      rw [hP_last]
      congr 1
      omega
    have hQlast : (A ++ S.reverse).getLastD (0, 0) = P.getD (i + 1) (0, 0) := by
      rw [getLastD_append A S.reverse hSrev_ne, getLastD_reverse, hS_head]
    have hQhead : (A ++ S.reverse).headD (0, 0) = P.getD 0 (0, 0) := by
      rw [headD_append A S.reverse hA_ne, hA_head]
    have hQlen : ¬ (A ++ S.reverse).length = 0 := by
      simp [hA_len]
    rw [hQ, cycLen, cycLen, if_neg hQlen, if_neg hP_len_ne]
    rw [hadjASrev, hQlast, hQhead, hadjP, hPlast2, hP_head, hmod]
    ring
  · -- k + 1 < P.length: the wrap edge is untouched
    have hkn : k + 1 < P.length := by
      rcases hBe : B with _ | ⟨b0, bt⟩
      · exact absurd hBe hBcase
      · have hpos : 0 < B.length := by rw [hBe]; simp
        omega
    have hmod : (k + 1) % P.length = k + 1 := Nat.mod_eq_of_lt hkn
    have hB_head : B.headD (0, 0) = P.getD (k + 1) (0, 0) := by
      rw [headD_eq_getD, hB, getD_drop]
    have hB_last : B.getLastD (0, 0) = P.getD (P.length - 1) (0, 0) := by
      rw [getLastD_eq_getD B hBcase, hB_len, hB, getD_drop]
      congr 1
      omega
    have hadjP : adjSum P =
        adjSum (A ++ S) + _dist (P.getD k (0, 0)) (P.getD (k + 1) (0, 0)) +
          adjSum B := by
      have h := congrArg adjSum hsplit
      rw [adjSum_append (A ++ S) B hAS_ne hBcase,
        getLastD_append A S hS_ne, hS_last, hB_head] at h
      exact h
    have hadjQ : adjSum (A ++ S.reverse ++ B) =
        adjSum (A ++ S.reverse) +
          _dist (P.getD (i + 1) (0, 0)) (P.getD (k + 1) (0, 0)) + adjSum B := by
      rw [adjSum_append (A ++ S.reverse) B hASrev_ne hBcase,
        getLastD_append A S.reverse hSrev_ne, getLastD_reverse, hS_head, hB_head]
    have hQlast : (A ++ S.reverse ++ B).getLastD (0, 0) =
        P.getD (P.length - 1) (0, 0) := by
      rw [getLastD_append (A ++ S.reverse) B hBcase, hB_last]
    have hQhead : (A ++ S.reverse ++ B).headD (0, 0) = P.getD 0 (0, 0) := by
      rw [headD_append (A ++ S.reverse) B hASrev_ne,
        headD_append A S.reverse hA_ne, hA_head]
    have hPlast3 : P.getLastD (0, 0) = P.getD (P.length - 1) (0, 0) := hP_last
    have hQlen : ¬ (A ++ S.reverse ++ B).length = 0 := by
      simp [hA_len]
    rw [cycLen, cycLen, if_neg hQlen, if_neg hP_len_ne]
    rw [hadjQ, hadjASrev, hQlast, hQhead, hadjP, hadjAS, hPlast3, hP_head, hmod]
    ring

lemma twoOptSwap_map (points : List Point) (tour : List Nat) (i k : Nat) :
    (twoOptSwap tour i k).map (fun ix => points.getD ix (0, 0)) =
      (tour.map fun ix => points.getD ix (0, 0)).take (i + 1) ++
        (((tour.map fun ix => points.getD ix (0, 0)).drop (i + 1)).take (k - i)).reverse ++
        (tour.map fun ix => points.getD ix (0, 0)).drop (k + 1) := by
  rw [twoOptSwap]
  simp [List.map_append, List.map_take, List.map_drop, List.map_reverse]

lemma twoOptSwap_length (tour : List Nat) (i k : Nat) (hik : i + 2 ≤ k)
    (hk : k < tour.length) :
    (twoOptSwap tour i k).length = tour.length := by
  rw [twoOptSwap]
  simp only [List.length_append, List.length_reverse, List.length_take,
    List.length_drop]
  omega

lemma twoOptSwap_perm (tour : List Nat) (i k : Nat) (hik : i ≤ k) :
    (twoOptSwap tour i k).Perm tour := by
  have h3 : (tour.drop (i + 1)).drop (k - i) = tour.drop (k + 1) := by
    rw [List.drop_drop]
    congr 1
    omega
  have h2 : (tour.drop (i + 1)).take (k - i) ++ tour.drop (k + 1) =
      tour.drop (i + 1) := by
    rw [← h3, List.take_append_drop]
  have p1 : (twoOptSwap tour i k).Perm
      (tour.take (i + 1) ++ ((tour.drop (i + 1)).take (k - i) ++ tour.drop (k + 1))) := by
    rw [twoOptSwap, List.append_assoc]
    exact List.Perm.append_left _ (List.Perm.append_right _ (List.reverse_perm _))
  rw [h2, List.take_append_drop] at p1
  exact p1

lemma tour_length_swap (points : List Point) (tour : List Nat) (i k : Nat)
    (hik : i + 2 ≤ k) (hk : k < tour.length) :
    tsp_tour_length points (twoOptSwap tour i k) =
      tsp_tour_length points tour - twoOptGain points tour i k := by
  have hlen0 : 0 < tour.length := by omega
  have hmodlt : (k + 1) % tour.length < tour.length := Nat.mod_lt _ hlen0
  rw [tsp_tour_length_eq_cycLen, tsp_tour_length_eq_cycLen, twoOptSwap_map]
  have hsp := cycLen_splice (tour.map fun ix => points.getD ix (0, 0)) i k hik
    (by rw [List.length_map]; exact hk)
  rw [hsp]
  have hmlen : (tour.map fun ix => points.getD ix (0, 0)).length = tour.length :=
    List.length_map _ _
  have hgain : twoOptGain points tour i k =
      (_dist ((tour.map fun ix => points.getD ix (0, 0)).getD i (0, 0))
          ((tour.map fun ix => points.getD ix (0, 0)).getD (i + 1) (0, 0)) +
        _dist ((tour.map fun ix => points.getD ix (0, 0)).getD k (0, 0))
          ((tour.map fun ix => points.getD ix (0, 0)).getD
            ((k + 1) % (tour.map fun ix => points.getD ix (0, 0)).length) (0, 0))) -
      (_dist ((tour.map fun ix => points.getD ix (0, 0)).getD i (0, 0))
          ((tour.map fun ix => points.getD ix (0, 0)).getD k (0, 0)) +
        _dist ((tour.map fun ix => points.getD ix (0, 0)).getD (i + 1) (0, 0))
          ((tour.map fun ix => points.getD ix (0, 0)).getD
            ((k + 1) % (tour.map fun ix => points.getD ix (0, 0)).length) (0, 0))) := by
    rw [twoOptGain, hmlen, Nat.mod_eq_of_lt (show i + 1 < tour.length by omega)]
    rw [← tourPt_eq_getD points tour i (by omega),
      ← tourPt_eq_getD points tour (i + 1) (by omega),
      ← tourPt_eq_getD points tour k (by omega),
      ← tourPt_eq_getD points tour ((k + 1) % tour.length) hmodlt]
  rw [hgain]

lemma twoOptEps_pos : (0 : ℝ) < twoOptEps := by
  rw [twoOptEps]
  norm_num

lemma krange_bounds (n i k : Nat) (hk : k ∈ krange n i) : i + 2 ≤ k ∧ k < n := by
  rw [krange, List.mem_range'_1] at hk
  by_cases hi : 0 < i
  · rw [if_pos hi] at hk
    omega
  · rw [if_neg hi] at hk
    omega

lemma kLoop_inv (points : List Point) (max_swaps i : Nat) :
    ∀ (ks : List Nat) (st : TwoOptSt),
      (∀ k ∈ ks, i + 2 ≤ k ∧ k < st.tour.length) →
      (kLoop points max_swaps i ks st).tour.length = st.tour.length ∧
      tsp_tour_length points (kLoop points max_swaps i ks st).tour ≤
        tsp_tour_length points st.tour ∧
      (kLoop points max_swaps i ks st).tour.Perm st.tour := by
  intro ks
  induction ks with
  | nil =>
    intro st _
    exact ⟨rfl, le_refl _, List.Perm.refl _⟩
  | cons k ks' ih =>
    intro st hks
    obtain ⟨hik, hk⟩ := hks k (List.mem_cons_self k ks')
    rw [kLoop]
    by_cases hgain : twoOptEps < twoOptGain points st.tour i k
    · rw [if_pos hgain]
      have hlen' : (twoOptSwap st.tour i k).length = st.tour.length :=
        twoOptSwap_length st.tour i k hik hk
      have hdec : tsp_tour_length points (twoOptSwap st.tour i k) ≤
          tsp_tour_length points st.tour := by
        rw [tour_length_swap points st.tour i k hik hk]
        have heps := twoOptEps_pos
        linarith
      have hperm : (twoOptSwap st.tour i k).Perm st.tour :=
        twoOptSwap_perm st.tour i k (by omega)
      by_cases hmax : max_swaps ≤ st.swaps + 1
      · rw [if_pos hmax]
        exact ⟨hlen', hdec, hperm⟩
      · rw [if_neg hmax]
        have hks' : ∀ k' ∈ ks', i + 2 ≤ k' ∧
            k' < (⟨twoOptSwap st.tour i k, st.swaps + 1, true⟩ : TwoOptSt).tour.length := by
          intro k' hk'
          obtain ⟨h1, h2⟩ := hks k' (List.mem_cons_of_mem k hk')
          exact ⟨h1, by simpa [hlen'] using h2⟩
        obtain ⟨l1, l2, l3⟩ := ih ⟨twoOptSwap st.tour i k, st.swaps + 1, true⟩ hks'
        exact ⟨by rw [l1]; exact hlen', le_trans l2 hdec, l3.trans hperm⟩
    · rw [if_neg hgain]
      exact ih st fun k' hk' => hks k' (List.mem_cons_of_mem k hk')

lemma iLoop_inv (points : List Point) (max_swaps n : Nat) :
    ∀ (is' : List Nat) (st : TwoOptSt), st.tour.length = n →
      (iLoop points max_swaps n is' st).tour.length = n ∧
      tsp_tour_length points (iLoop points max_swaps n is' st).tour ≤
        tsp_tour_length points st.tour ∧
      (iLoop points max_swaps n is' st).tour.Perm st.tour := by
  intro is'
  induction is' with
  | nil =>
    intro st hlen
    exact ⟨hlen, le_refl _, List.Perm.refl _⟩
  | cons i is'' ih =>
    intro st hlen
    rw [iLoop]
    have hkb : ∀ k ∈ krange n i, i + 2 ≤ k ∧ k < st.tour.length := by
      intro k hk
      obtain ⟨h1, h2⟩ := krange_bounds n i k hk
      exact ⟨h1, by omega⟩
    obtain ⟨k1, k2, k3⟩ := kLoop_inv points max_swaps i (krange n i) st hkb
    by_cases hmax : max_swaps ≤ (kLoop points max_swaps i (krange n i) st).swaps
    · rw [if_pos hmax]
      exact ⟨by omega, k2, k3⟩
    · rw [if_neg hmax]
      obtain ⟨l1, l2, l3⟩ := ih (kLoop points max_swaps i (krange n i) st) (by omega)
      exact ⟨l1, le_trans l2 k2, l3.trans k3⟩

lemma twoOptWhile_inv (points : List Point) (max_swaps n : Nat) :
    ∀ (fuel : Nat) (st : TwoOptSt), st.tour.length = n →
      (twoOptWhile points max_swaps n fuel st).tour.length = n ∧
      tsp_tour_length points (twoOptWhile points max_swaps n fuel st).tour ≤
        tsp_tour_length points st.tour ∧
      (twoOptWhile points max_swaps n fuel st).tour.Perm st.tour := by
  intro fuel
  induction fuel with
  | zero =>
    intro st hlen
    exact ⟨hlen, le_refl _, List.Perm.refl _⟩
  | succ f ih =>
    intro st hlen
    rw [twoOptWhile]
    by_cases hcond : st.improved = true ∧ st.swaps < max_swaps
    · rw [if_pos hcond]
      obtain ⟨i1, i2, i3⟩ := iLoop_inv points max_swaps n (List.range (n - 1))
        ⟨st.tour, st.swaps, false⟩ hlen
      obtain ⟨w1, w2, w3⟩ := ih
        (iLoop points max_swaps n (List.range (n - 1)) ⟨st.tour, st.swaps, false⟩) i1
      exact ⟨w1, le_trans w2 i2, w3.trans i3⟩
    · rw [if_neg hcond]
      exact ⟨hlen, le_refl _, List.Perm.refl _⟩

/-- C4. `tsp_2opt` never worsens the tour: every applied swap changes the
length by exactly its gain (which must exceed the `1e-12` guard), so the tour
length is monotonically non-increasing across swaps, and the final tour is at
most as long as the input tour — in particular for a nearest-neighbor input
tour. -/
theorem tsp_2opt_non_worsening (points : List Point) (tour : List Nat)
    (max_swaps : Nat) :
    tsp_tour_length points (tsp_2opt points tour max_swaps) ≤
      tsp_tour_length points tour ∧
    (∀ (tour' : List Nat) (i k : Nat), i + 2 ≤ k → k < tour'.length →
      tsp_tour_length points (twoOptSwap tour' i k) =
        tsp_tour_length points tour' - twoOptGain points tour' i k) := by
  constructor
  · rw [tsp_2opt]
    by_cases hshort : tour.length < 4
    · rw [if_pos hshort]
    · rw [if_neg hshort]
      exact (twoOptWhile_inv points max_swaps tour.length (max_swaps + 1)
        ⟨tour, 0, true⟩ rfl).2.1
  · intro tour' i k hik hk
    exact tour_length_swap points tour' i k hik hk

/-- Witness for C4 on the unit square: swapping positions 0 and 2 of the
identity tour changes the length by exactly the gain. -/
theorem tsp_2opt_non_worsening_witness :
    tsp_tour_length [((0 : ℝ), (0 : ℝ)), (1, 0), (1, 1), (0, 1)]
        (twoOptSwap [0, 1, 2, 3] 0 2) =
      tsp_tour_length [((0 : ℝ), (0 : ℝ)), (1, 0), (1, 1), (0, 1)] [0, 1, 2, 3] -
        twoOptGain [((0 : ℝ), (0 : ℝ)), (1, 0), (1, 1), (0, 1)] [0, 1, 2, 3] 0 2 :=
  (tsp_2opt_non_worsening [((0 : ℝ), (0 : ℝ)), (1, 0), (1, 1), (0, 1)] [] 0).2
    [0, 1, 2, 3] 0 2 (by decide) (by decide)

lemma argminBy_mem (f : Nat → ℝ) :
    ∀ (xs : List Nat) (cur : Nat), argminBy f xs cur = cur ∨ argminBy f xs cur ∈ xs := by
  intro xs
  induction xs with
  | nil => intro cur; exact Or.inl rfl
  | cons x xs' ih =>
    intro cur
    rw [argminBy]
    rcases ih (if f x < f cur then x else cur) with h | h
    · rw [h]
      by_cases hx : f x < f cur
      · rw [if_pos hx]
        exact Or.inr (List.mem_cons_self x xs')
      · rw [if_neg hx]
        exact Or.inl rfl
    · exact Or.inr (List.mem_cons_of_mem x h)

lemma head?_append_singleton (tour : List Nat) (x : Nat) (h : tour ≠ []) :
    (tour ++ [x]).head? = tour.head? := by
  cases tour with
  | nil => exact absurd rfl h
  | cons a t => rfl

lemma nnLoop_spec (points : List Point) :
    ∀ (fuel : Nat) (unvisited tour : List Nat),
      unvisited.length ≤ fuel → tour ≠ [] →
      (nnLoop points fuel unvisited tour).Perm (tour ++ unvisited) ∧
      (nnLoop points fuel unvisited tour).head? = tour.head? := by
  intro fuel
  induction fuel with
  | zero =>
    intro unvisited tour hlen _
    have : unvisited = [] := List.length_eq_zero.mp (by omega)
    subst this
    rw [List.append_nil]
    exact ⟨List.Perm.refl _, rfl⟩
  | succ f ih =>
    intro unvisited tour hlen htour
    cases unvisited with
    | nil =>
      rw [List.append_nil]
      exact ⟨List.Perm.refl _, rfl⟩
    | cons u us =>
      rw [nnLoop]
      have hmem : argminBy
          (fun j => _dist (points.getD (tour.getLastD 0) (0, 0)) (points.getD j (0, 0)))
          us u ∈ u :: us := by
        rcases argminBy_mem _ us u with h | h
        · rw [h]; exact List.mem_cons_self u us
        · exact List.mem_cons_of_mem u h
      have hperm_uv : (u :: us).Perm
          (argminBy (fun j => _dist (points.getD (tour.getLastD 0) (0, 0))
            (points.getD j (0, 0))) us u ::
            (u :: us).erase (argminBy (fun j => _dist (points.getD (tour.getLastD 0) (0, 0))
              (points.getD j (0, 0))) us u)) :=
        List.perm_cons_erase hmem
      have hlen_er : ((u :: us).erase
          (argminBy (fun j => _dist (points.getD (tour.getLastD 0) (0, 0))
            (points.getD j (0, 0))) us u)).length ≤ f := by
        rw [List.length_erase_of_mem hmem]
        simp only [List.length_cons] at hlen ⊢
        omega
      obtain ⟨hp, hh⟩ := ih
        ((u :: us).erase (argminBy (fun j => _dist (points.getD (tour.getLastD 0) (0, 0))
          (points.getD j (0, 0))) us u))
        (tour ++ [argminBy (fun j => _dist (points.getD (tour.getLastD 0) (0, 0))
          (points.getD j (0, 0))) us u])
        hlen_er (by
          intro hc
          exact htour (List.append_eq_nil.mp hc).1)
      constructor
      · refine hp.trans ?_
        rw [List.append_assoc, List.singleton_append]
        exact List.Perm.append_left tour hperm_uv.symm
      · rw [hh, head?_append_singleton tour _ htour]

lemma tsp_nearest_neighbor_spec (points : List Point) (start : Nat)
    (hstart : start < points.length) :
    ∃ tour, tsp_nearest_neighbor? points start = some tour ∧
      tour.Perm (List.range points.length) ∧ tour.head? = some start := by
  have hunfold : tsp_nearest_neighbor? points start =
      some (nnLoop points points.length
        ((List.range points.length).erase start) [start]) := by
    rw [tsp_nearest_neighbor?]
    simp only [if_pos hstart]
  have hmem : start ∈ List.range points.length := List.mem_range.mpr hstart
  have hlen : ((List.range points.length).erase start).length ≤ points.length := by
    rw [List.length_erase_of_mem hmem, List.length_range]
    omega
  obtain ⟨hp, hh⟩ := nnLoop_spec points points.length
    ((List.range points.length).erase start) [start] hlen (by simp)
  refine ⟨_, hunfold, ?_, ?_⟩
  · refine hp.trans ?_
    rw [List.singleton_append]
    exact (List.perm_cons_erase hmem).symm
  · rw [hh]
    rfl

/-- C9. Tours are permutations throughout: for a non-empty point list and a
valid start index, `tsp_nearest_neighbor` builds a permutation of `0..n-1`
beginning with `start`; and `tsp_2opt` maps every tour to a tour that is a
permutation of it (segment reversal preserves the element multiset). -/
theorem tsp_tours_are_permutations :
    (∀ (points : List Point) (start : Nat), start < points.length →
      ∃ tour, tsp_nearest_neighbor? points start = some tour ∧
        tour.Perm (List.range points.length) ∧ tour.head? = some start) ∧
    (∀ (points : List Point) (tour : List Nat) (max_swaps : Nat),
      (tsp_2opt points tour max_swaps).Perm tour) := by
  constructor
  · exact tsp_nearest_neighbor_spec
  · intro points tour max_swaps
    rw [tsp_2opt]
    by_cases hshort : tour.length < 4
    · rw [if_pos hshort]
    · rw [if_neg hshort]
      exact (twoOptWhile_inv points max_swaps tour.length (max_swaps + 1)
        ⟨tour, 0, true⟩ rfl).2.2

/-- Witness for C9 on a one-point instance. -/
theorem tsp_tours_are_permutations_witness :
    ∃ tour, tsp_nearest_neighbor? [((0 : ℝ), (0 : ℝ))] 0 = some tour ∧
      tour.Perm (List.range 1) ∧ tour.head? = some 0 :=
  tsp_tours_are_permutations.1 [((0 : ℝ), (0 : ℝ))] 0 (by simp)

/-- C10. Edge cases of the TSP construction interface: on the empty point
list, `tsp_nearest_neighbor_accel` returns the empty tour with the
cpu/no-gpu meta record regardless of any accelerator, while the plain
`tsp_nearest_neighbor` fails there (`unvisited.remove(start)` raises); for a
non-empty point list with a valid start it succeeds after exactly `n - 1`
extensions of the one-element initial tour, i.e. with a tour of length `n`. -/
theorem tsp_nearest_neighbor_edge_cases :
    (∀ (gpu : Option (List Nat × AccelMeta)) (start : Nat),
      tsp_nearest_neighbor_accel gpu [] start = ([], ⟨"cpu", false⟩)) ∧
    (∀ (points : List Point) (start : Nat), points ≠ [] → start < points.length →
      ∃ tour, tsp_nearest_neighbor? points start = some tour ∧
        tour.length = points.length) ∧
    (∀ start : Nat, tsp_nearest_neighbor? ([] : List Point) start = none) := by
  refine ⟨?_, ?_, ?_⟩
  · intro gpu start
    rw [tsp_nearest_neighbor_accel.eq_def]
    simp
  · intro points start _ hstart
    obtain ⟨tour, hsome, hperm, _⟩ := tsp_nearest_neighbor_spec points start hstart
    refine ⟨tour, hsome, ?_⟩
    rw [hperm.length_eq, List.length_range]
  · intro start
    rw [tsp_nearest_neighbor?]
    simp

/-- Witness for C10 at concrete inputs. -/
theorem tsp_nearest_neighbor_edge_cases_witness :
    tsp_nearest_neighbor_accel none [] 3 = ([], ⟨"cpu", false⟩) ∧
    (∃ tour, tsp_nearest_neighbor? [((0 : ℝ), (0 : ℝ))] 0 = some tour ∧
      tour.length = 1) ∧
    tsp_nearest_neighbor? ([] : List Point) 0 = none :=
  ⟨tsp_nearest_neighbor_edge_cases.1 none 3,
    tsp_nearest_neighbor_edge_cases.2.1 [((0 : ℝ), (0 : ℝ))] 0 (by simp) (by simp),
    tsp_nearest_neighbor_edge_cases.2.2 0⟩

lemma _time_left_eq (τ : Nat → ℚ) (a b : ℚ) (s : RunSt) :
    _time_left τ a b s = (b - (τ s.clk - a), ⟨s.clk + 1, s.rng⟩) := rfl

lemma guardCheck_rng (τ : Nat → ℚ) (tr_start tr_budget start budget : ℚ)
    (s : RunSt) :
    (guardCheck τ tr_start tr_budget start budget s).2.rng = s.rng := by
  rw [guardCheck]
  split_ifs <;> rfl

lemma guardCheck_clk (τ : Nat → ℚ) (tr_start tr_budget start budget : ℚ)
    (s : RunSt) :
    s.clk ≤ (guardCheck τ tr_start tr_budget start budget s).2.clk := by
  rw [guardCheck]
  split_ifs
  · show s.clk ≤ s.clk + 1 + 1
    omega
  · show s.clk ≤ s.clk + 1
    omega

lemma guardCheck_false_of_budget (τ : Nat → ℚ) (hmono : Monotone τ) (i₀ : Nat)
    (tr_budget start budget : ℚ) (s : RunSt) (hle : i₀ ≤ s.clk)
    (hbud : tr_budget ≤ 1 / 4) :
    guardCheck τ (τ i₀) tr_budget start budget s = (false, ⟨s.clk + 1, s.rng⟩) := by
  have hτ : τ i₀ ≤ τ s.clk := hmono hle
  have hcond : ¬((_time_left τ (τ i₀) tr_budget s).1 > 1 / 4) := by
    show ¬(1 / 4 < tr_budget - (τ s.clk - τ i₀))
    intro h
    linarith
  rw [guardCheck, if_neg hcond]
  rfl

lemma satLoopR_guard_false (τ : Nat → ℚ) (g : Gen)
    (start budget sat_start sat_budget : ℚ) (fuel n : Nat) (best : SatBest)
    (s : RunSt)
    (hg : (guardCheck τ sat_start sat_budget start budget s).1 = false) :
    satLoopR τ g start budget sat_start sat_budget (fuel + 1) n best s =
      (best, (guardCheck τ sat_start sat_budget start budget s).2) := by
  rw [satLoopR]
  simp only [hg, Bool.false_eq_true, if_false]

lemma satLoopR_rng_mono (τ : Nat → ℚ) (g : Gen)
    (start budget sat_start sat_budget : ℚ) :
    ∀ (fuel n : Nat) (best : SatBest) (s : RunSt),
      s.rng ≤ (satLoopR τ g start budget sat_start sat_budget fuel n best s).2.rng := by
  intro fuel
  induction fuel with
  | zero => intro n best s; exact le_refl _
  | succ f ih =>
    intro n best s
    rw [satLoopR]
    rcases hg : (guardCheck τ sat_start sat_budget start budget s).1 with _ | _
    · simp only [hg, Bool.false_eq_true, if_false]
      rw [guardCheck_rng]
    · simp only [hg, if_true]
      rcases hsol : solve_3sat_bruteforce
          (g.gen3sat (guardCheck τ sat_start sat_budget start budget s).2.rng n (4 * n))
          n (some (2 ^ min n 22)) with _ | w
      · simp only [hsol]
        show s.rng ≤ (guardCheck τ sat_start sat_budget start budget s).2.rng + 1
        rw [guardCheck_rng]
        omega
      · simp only [hsol]
        have := ih (n + 1)
          ⟨n, 4 * n, best.solved + 1, best.attempted + 1⟩
          ⟨(guardCheck τ sat_start sat_budget start budget s).2.clk,
            (guardCheck τ sat_start sat_budget start budget s).2.rng + 1⟩
        have hr := guardCheck_rng τ sat_start sat_budget start budget s
        simp only at this
        omega

lemma satLoopR_guard_true (τ : Nat → ℚ) (g : Gen)
    (start budget sat_start sat_budget : ℚ) (fuel n : Nat) (best : SatBest)
    (s : RunSt)
    (hg : (guardCheck τ sat_start sat_budget start budget s).1 = true) :
    s.rng + 1 ≤
      (satLoopR τ g start budget sat_start sat_budget (fuel + 1) n best s).2.rng := by
  rw [satLoopR]
  simp only [hg, if_true]
  rcases hsol : solve_3sat_bruteforce
      (g.gen3sat (guardCheck τ sat_start sat_budget start budget s).2.rng n (4 * n))
      n (some (2 ^ min n 22)) with _ | w
  · simp only [hsol]
    show s.rng + 1 ≤ (guardCheck τ sat_start sat_budget start budget s).2.rng + 1
    rw [guardCheck_rng]
  · simp only [hsol]
    have := satLoopR_rng_mono τ g start budget sat_start sat_budget fuel (n + 1)
      ⟨n, 4 * n, best.solved + 1, best.attempted + 1⟩
      ⟨(guardCheck τ sat_start sat_budget start budget s).2.clk,
        (guardCheck τ sat_start sat_budget start budget s).2.rng + 1⟩
    have hr := guardCheck_rng τ sat_start sat_budget start budget s
    simp only at this
    omega

lemma vcLoopR_guard_false (τ : Nat → ℚ) (g : Gen)
    (start budget vc_start vc_budget : ℚ) (fuel vc_n : Nat) (best : VcBest)
    (s : RunSt)
    (hg : (guardCheck τ vc_start vc_budget start budget s).1 = false) :
    vcLoopR τ g start budget vc_start vc_budget (fuel + 1) vc_n best s =
      (best, (guardCheck τ vc_start vc_budget start budget s).2) := by
  rw [vcLoopR]
  simp only [hg, Bool.false_eq_true, if_false]

lemma vcLoopR_rng_mono (τ : Nat → ℚ) (g : Gen)
    (start budget vc_start vc_budget : ℚ) :
    ∀ (fuel vc_n : Nat) (best : VcBest) (s : RunSt),
      s.rng ≤ (vcLoopR τ g start budget vc_start vc_budget fuel vc_n best s).2.rng := by
  intro fuel
  induction fuel with
  | zero => intro vc_n best s; exact le_refl _
  | succ f ih =>
    intro vc_n best s
    rw [vcLoopR]
    rcases hg : (guardCheck τ vc_start vc_budget start budget s).1 with _ | _
    · simp only [hg, Bool.false_eq_true, if_false]
      rw [guardCheck_rng]
    · simp only [hg, if_true]
      rcases hk : vcFindK
          (g.genEdges (guardCheck τ vc_start vc_budget start budget s).2.rng vc_n (1 / 5))
          vc_n (List.range (min vc_n 10 + 1)) with _ | fk
      · simp only [hk]
        show s.rng ≤ (guardCheck τ vc_start vc_budget start budget s).2.rng + 1
        rw [guardCheck_rng]
        omega
      · simp only [hk]
        have := ih (vc_n + 1)
          ⟨vc_n, fk, true,
            some (g.genEdges (guardCheck τ vc_start vc_budget start budget s).2.rng
              vc_n (1 / 5)).length⟩
          ⟨(guardCheck τ vc_start vc_budget start budget s).2.clk,
            (guardCheck τ vc_start vc_budget start budget s).2.rng + 1⟩
        have hr := guardCheck_rng τ vc_start vc_budget start budget s
        simp only at this
        omega

lemma vcLoopR_guard_true (τ : Nat → ℚ) (g : Gen)
    (start budget vc_start vc_budget : ℚ) (fuel vc_n : Nat) (best : VcBest)
    (s : RunSt)
    (hg : (guardCheck τ vc_start vc_budget start budget s).1 = true) :
    s.rng + 1 ≤
      (vcLoopR τ g start budget vc_start vc_budget (fuel + 1) vc_n best s).2.rng := by
  rw [vcLoopR]
  simp only [hg, if_true]
  rcases hk : vcFindK
      (g.genEdges (guardCheck τ vc_start vc_budget start budget s).2.rng vc_n (1 / 5))
      vc_n (List.range (min vc_n 10 + 1)) with _ | fk
  · simp only [hk]
    show s.rng + 1 ≤ (guardCheck τ vc_start vc_budget start budget s).2.rng + 1
    rw [guardCheck_rng]
  · simp only [hk]
    have := vcLoopR_rng_mono τ g start budget vc_start vc_budget fuel (vc_n + 1)
      ⟨vc_n, fk, true,
        some (g.genEdges (guardCheck τ vc_start vc_budget start budget s).2.rng
          vc_n (1 / 5)).length⟩
      ⟨(guardCheck τ vc_start vc_budget start budget s).2.clk,
        (guardCheck τ vc_start vc_budget start budget s).2.rng + 1⟩
    have hr := guardCheck_rng τ vc_start vc_budget start budget s
    simp only at this
    omega

lemma tspTrack_rng_le (τ : Nat → ℚ) (g : Gen)
    (gpu : Option (List Nat × AccelMeta)) (cfg : BenchConfig)
    (start budget ppb : ℚ) (s : RunSt) :
    (tspTrack τ g gpu cfg start budget ppb s).2.rng ≤ s.rng + 1 := by
  rw [tspTrack]
  rcases hg : (guardCheck τ (tick τ s).1 ppb start budget (tick τ s).2).1 with _ | _
  · simp only [hg, Bool.false_eq_true, if_false]
    have h1 := guardCheck_rng τ (tick τ s).1 ppb start budget (tick τ s).2
    have h2 : (tick τ s).2.rng = s.rng := rfl
    omega
  · simp only [hg, if_true]
    have h1 := guardCheck_rng τ (tick τ s).1 ppb start budget (tick τ s).2
    have h2 : (tick τ s).2.rng = s.rng := rfl
    show (guardCheck τ (tick τ s).1 ppb start budget (tick τ s).2).2.rng + 1 ≤ s.rng + 1
    omega

lemma tspTrack_guard_false (τ : Nat → ℚ) (g : Gen)
    (gpu : Option (List Nat × AccelMeta)) (cfg : BenchConfig)
    (start budget ppb : ℚ) (s : RunSt)
    (hg : (guardCheck τ (tick τ s).1 ppb start budget (tick τ s).2).1 = false) :
    tspTrack τ g gpu cfg start budget ppb s =
      (none, (guardCheck τ (tick τ s).1 ppb start budget (tick τ s).2).2) := by
  rw [tspTrack]
  simp only [hg, Bool.false_eq_true, if_false]

lemma tspTrack_guard_true_isSome (τ : Nat → ℚ) (g : Gen)
    (gpu : Option (List Nat × AccelMeta)) (cfg : BenchConfig)
    (start budget ppb : ℚ) (s : RunSt)
    (hg : (guardCheck τ (tick τ s).1 ppb start budget (tick τ s).2).1 = true) :
    ((tspTrack τ g gpu cfg start budget ppb s).1.isSome = true) ∧
    (tspTrack τ g gpu cfg start budget ppb s).2.rng = s.rng + 1 := by
  rw [tspTrack]
  simp only [hg, if_true]
  have h1 := guardCheck_rng τ (tick τ s).1 ppb start budget (tick τ s).2
  have h2 : (tick τ s).2.rng = s.rng := rfl
  constructor
  · rfl
  · show (guardCheck τ (tick τ s).1 ppb start budget (tick τ s).2).2.rng + 1 = s.rng + 1
    omega

lemma guardCheck_true_of (τ : Nat → ℚ) (tr_start tr_budget start budget : ℚ)
    (s : RunSt)
    (h1 : 1 / 4 < tr_budget - (τ s.clk - tr_start))
    (h2 : 1 / 4 < budget - (τ (s.clk + 1) - start)) :
    guardCheck τ tr_start tr_budget start budget s =
      (true, ⟨s.clk + 2, s.rng⟩) := by
  have hcond : (_time_left τ tr_start tr_budget s).1 > 1 / 4 := h1
  rw [guardCheck, if_pos hcond]
  have h2' : (_time_left τ start budget
      (_time_left τ tr_start tr_budget s).2).1 > 1 / 4 := h2
  rw [decide_eq_true h2']
  have hclk : s.clk + 1 + 1 = s.clk + 2 := by omega
  show (true, (⟨s.clk + 1 + 1, s.rng⟩ : RunSt)) = (true, ⟨s.clk + 2, s.rng⟩)
  rw [hclk]

lemma tspTrack_guard_true_state (τ : Nat → ℚ) (g : Gen)
    (gpu : Option (List Nat × AccelMeta)) (cfg : BenchConfig)
    (start budget ppb : ℚ) (s : RunSt)
    (hg : guardCheck τ (tick τ s).1 ppb start budget (tick τ s).2 =
      (true, ⟨s.clk + 3, s.rng⟩)) :
    (tspTrack τ g gpu cfg start budget ppb s).1.isSome = true ∧
    (tspTrack τ g gpu cfg start budget ppb s).2 = ⟨s.clk + 3 + 1, s.rng + 1⟩ := by
  rw [tspTrack]
  simp only [hg, if_true]
  exact ⟨rfl, rfl⟩

lemma ksTrack_eq (τ : Nat → ℚ) (g : Gen) (s : RunSt) :
    ksTrack τ g s =
      (⟨300, 2000, (solve_knapsack_dp (g.genItems s.rng 300 50 100) 2000).1,
        (solve_knapsack_dp (g.genItems s.rng 300 50 100) 2000).2.length,
        τ (s.clk + 1) - τ s.clk,
        "Exact DP (pseudo-polynomial in capacity)."⟩,
      ⟨s.clk + 2, s.rng + 1⟩) := rfl

lemma satTrack_exhausted (τ : Nat → ℚ) (hmono : Monotone τ) (g : Gen)
    (start budget ppb : ℚ) (hppb : ppb ≤ 1 / 4) (fuel : Nat) (s : RunSt) :
    ∃ sec s', satTrack τ g start budget ppb fuel s = (⟨⟨0, 0, 0, 0⟩, sec⟩, s') ∧
      s'.rng = s.rng ∧ s.clk ≤ s'.clk := by
  rw [satTrack]
  cases fuel with
  | zero =>
    refine ⟨_, _, rfl, rfl, ?_⟩
    show s.clk ≤ s.clk + 1 + 1
    omega
  | succ f =>
    have hg : guardCheck τ (tick τ s).1 ppb start budget (tick τ s).2 =
        (false, ⟨(tick τ s).2.clk + 1, (tick τ s).2.rng⟩) := by
      have := guardCheck_false_of_budget τ hmono s.clk ppb start budget
        (tick τ s).2 (by show s.clk ≤ s.clk + 1; omega) hppb
      exact this
    have hloop := satLoopR_guard_false τ g start budget (tick τ s).1 ppb f 12
      ⟨0, 0, 0, 0⟩ (tick τ s).2 (by rw [hg])
    rw [hloop, hg]
    refine ⟨_, _, rfl, rfl, ?_⟩
    show s.clk ≤ s.clk + 1 + 1 + 1
    omega

lemma tspTrack_exhausted (τ : Nat → ℚ) (hmono : Monotone τ) (g : Gen)
    (gpu : Option (List Nat × AccelMeta)) (cfg : BenchConfig)
    (start budget ppb : ℚ) (hppb : ppb ≤ 1 / 4) (s : RunSt) :
    ∃ s', tspTrack τ g gpu cfg start budget ppb s = (none, s') ∧
      s'.rng = s.rng ∧ s.clk ≤ s'.clk := by
  have hg : guardCheck τ (tick τ s).1 ppb start budget (tick τ s).2 =
      (false, ⟨(tick τ s).2.clk + 1, (tick τ s).2.rng⟩) :=
    guardCheck_false_of_budget τ hmono s.clk ppb start budget
      (tick τ s).2 (by show s.clk ≤ s.clk + 1; omega) hppb
  have h := tspTrack_guard_false τ g gpu cfg start budget ppb s (by rw [hg])
  rw [h, hg]
  refine ⟨_, rfl, rfl, ?_⟩
  show s.clk ≤ s.clk + 1 + 1
  omega

lemma vcTrack_exhausted (τ : Nat → ℚ) (hmono : Monotone τ) (g : Gen)
    (start budget ppb : ℚ) (hppb : ppb ≤ 1 / 4) (fuel : Nat) (s : RunSt) :
    ∃ sec s', vcTrack τ g start budget ppb fuel s =
      (⟨⟨0, 0, false, none⟩, sec, "Exact (bruteforce) on small n; bounded k search."⟩, s') ∧
      s'.rng = s.rng ∧ s.clk ≤ s'.clk := by
  rw [vcTrack]
  cases fuel with
  | zero =>
    refine ⟨_, _, rfl, rfl, ?_⟩
    show s.clk ≤ s.clk + 1 + 1
    omega
  | succ f =>
    have hg : guardCheck τ (tick τ s).1 ppb start budget (tick τ s).2 =
        (false, ⟨(tick τ s).2.clk + 1, (tick τ s).2.rng⟩) :=
      guardCheck_false_of_budget τ hmono s.clk ppb start budget
        (tick τ s).2 (by show s.clk ≤ s.clk + 1; omega) hppb
    have hloop := vcLoopR_guard_false τ g start budget (tick τ s).1 ppb f 22
      ⟨0, 0, false, none⟩ (tick τ s).2 (by rw [hg])
    rw [hloop, hg]
    refine ⟨_, _, rfl, rfl, ?_⟩
    show s.clk ≤ s.clk + 1 + 1 + 1
    omega

/-- C7 counterexample: with the budget already exhausted (zero minutes and a
zero per-problem cap), the `"tsp"` key is missing from the problems mapping —
it is written only inside the loop body — while the other three tracks do
appear; this contradicts "no track's entry is missing". -/
theorem run_np_benchmarks_missing_tsp_counterexample :
    (run_np_benchmarks tau0 gen0 none ⟨1337, 0, some 0, true⟩ 1
        ⟨0, 0⟩).1.problems.threesat.isSome = true ∧
    (run_np_benchmarks tau0 gen0 none ⟨1337, 0, some 0, true⟩ 1
        ⟨0, 0⟩).1.problems.tsp = none ∧
    (run_np_benchmarks tau0 gen0 none ⟨1337, 0, some 0, true⟩ 1
        ⟨0, 0⟩).1.problems.vertex_cover.isSome = true ∧
    (run_np_benchmarks tau0 gen0 none ⟨1337, 0, some 0, true⟩ 1
        ⟨0, 0⟩).1.problems.knapsack.isSome = true := by
  have hmono : Monotone tau0 := fun _ _ _ => le_refl 0
  have hppb4 : per_problem_budget ⟨1337, 0, some 0, true⟩ ≤ 1 / 4 := by
    simp only [per_problem_budget]
    norm_num
  obtain ⟨sec1, s1, hsat, hr1, hk1⟩ := satTrack_exhausted tau0 hmono gen0
    (tick tau0 ⟨0, 0⟩).1 (_deadline_seconds ⟨1337, 0, some 0, true⟩)
    (per_problem_budget ⟨1337, 0, some 0, true⟩) hppb4 1 (tick tau0 ⟨0, 0⟩).2
  obtain ⟨s2, htsp, hr2, hk2⟩ := tspTrack_exhausted tau0 hmono gen0 none
    ⟨1337, 0, some 0, true⟩ (tick tau0 ⟨0, 0⟩).1
    (_deadline_seconds ⟨1337, 0, some 0, true⟩)
    (per_problem_budget ⟨1337, 0, some 0, true⟩) hppb4 s1
  obtain ⟨sec3, s3, hvc, hr3, hk3⟩ := vcTrack_exhausted tau0 hmono gen0
    (tick tau0 ⟨0, 0⟩).1 (_deadline_seconds ⟨1337, 0, some 0, true⟩)
    (per_problem_budget ⟨1337, 0, some 0, true⟩) hppb4 1 s2
  have hks := ksTrack_eq tau0 gen0 s3
  rw [run_np_benchmarks]
  simp only [hsat, htsp, hvc, hks]
  exact ⟨rfl, trivial, rfl, rfl⟩

/-- C7 amended: with a per-problem cap at or below the 0.25s guard (in
particular a non-positive cap) and a monotone clock, the 3-SAT and
vertex-cover loops exit immediately and their entries appear with all-zero
statistics and a seconds field; the tsp loop also exits immediately but its
entry is then MISSING from the problems mapping; and the knapsack track runs
unconditionally — it still consumes one generator call (the run's only one)
and its entry always appears. -/
theorem run_np_benchmarks_exhausted_budget (τ : Nat → ℚ) (hmono : Monotone τ)
    (g : Gen) (gpu : Option (List Nat × AccelMeta)) (cfg : BenchConfig)
    (c : ℚ) (hc : cfg.per_problem_max_seconds = some c) (hc4 : c ≤ 1 / 4)
    (fuel : Nat) (s0 : RunSt) :
    (∃ sec, (run_np_benchmarks τ g gpu cfg fuel s0).1.problems.threesat =
        some ⟨⟨0, 0, 0, 0⟩, sec⟩) ∧
    (run_np_benchmarks τ g gpu cfg fuel s0).1.problems.tsp = none ∧
    (∃ sec, (run_np_benchmarks τ g gpu cfg fuel s0).1.problems.vertex_cover =
        some ⟨⟨0, 0, false, none⟩, sec,
          "Exact (bruteforce) on small n; bounded k search."⟩) ∧
    (∃ r, (run_np_benchmarks τ g gpu cfg fuel s0).1.problems.knapsack = some r) ∧
    (run_np_benchmarks τ g gpu cfg fuel s0).2.rng = s0.rng + 1 := by
  have hppb : per_problem_budget cfg = c := by
    simp only [per_problem_budget, hc]
  have hppb4 : per_problem_budget cfg ≤ 1 / 4 := by rw [hppb]; exact hc4
  obtain ⟨sec1, s1, hsat, hr1, hk1⟩ := satTrack_exhausted τ hmono g
    (tick τ s0).1 (_deadline_seconds cfg) (per_problem_budget cfg) hppb4 fuel
    (tick τ s0).2
  obtain ⟨s2, htsp, hr2, hk2⟩ := tspTrack_exhausted τ hmono g gpu cfg
    (tick τ s0).1 (_deadline_seconds cfg) (per_problem_budget cfg) hppb4 s1
  obtain ⟨sec3, s3, hvc, hr3, hk3⟩ := vcTrack_exhausted τ hmono g
    (tick τ s0).1 (_deadline_seconds cfg) (per_problem_budget cfg) hppb4 fuel s2
  have hks := ksTrack_eq τ g s3
  rw [run_np_benchmarks]
  simp only [hsat, htsp, hvc, hks]
  refine ⟨⟨sec1, rfl⟩, trivial, ⟨sec3, rfl⟩, ⟨_, rfl⟩, ?_⟩
  show s3.rng + 1 = s0.rng + 1
  have h0 : (tick τ s0).2.rng = s0.rng := rfl
  omega

/-- Witness for the amended C7 at concrete inputs. -/
theorem run_np_benchmarks_exhausted_budget_witness :
    (run_np_benchmarks tau0 gen0 none ⟨1337, 0, some 0, true⟩ 1 ⟨0, 0⟩).2.rng =
      0 + 1 :=
  (run_np_benchmarks_exhausted_budget tau0 (fun _ _ _ => le_refl 0) gen0 none
    ⟨1337, 0, some 0, true⟩ 0 rfl (by norm_num) 1 ⟨0, 0⟩).2.2.2.2

/-- C8 counterexample: a tsp-track run on which, after its single iteration,
both the local and the global tracker still have far more than the 0.25s
guard remaining — yet no second iteration is attempted (the loop body ends in
an unconditional `break`, observable as exactly one generator call). -/
theorem tsp_track_single_iteration_counterexample :
    (tspTrack tau0 gen0 none ⟨1337, 400, none, true⟩ 0 24000 6000
        ⟨0, 0⟩).1.isSome = true ∧
    (tspTrack tau0 gen0 none ⟨1337, 400, none, true⟩ 0 24000 6000
        ⟨0, 0⟩).2.rng = 0 + 1 ∧
    (_time_left tau0 0 6000
      (tspTrack tau0 gen0 none ⟨1337, 400, none, true⟩ 0 24000 6000 ⟨0, 0⟩).2).1 >
        1 / 4 ∧
    (_time_left tau0 0 24000
      (tspTrack tau0 gen0 none ⟨1337, 400, none, true⟩ 0 24000 6000 ⟨0, 0⟩).2).1 >
        1 / 4 := by
  have hg : guardCheck tau0 (tick tau0 ⟨0, 0⟩).1 6000 0 24000
      (tick tau0 ⟨0, 0⟩).2 = (true, ⟨3, 0⟩) := by
    have h1 : (1 : ℚ) / 4 < 6000 -
        (tau0 (tick tau0 ⟨0, 0⟩).2.clk - (tick tau0 ⟨0, 0⟩).1) := by
      show (1 : ℚ) / 4 < 6000 - (0 - 0)
      norm_num
    have h2 : (1 : ℚ) / 4 < 24000 -
        (tau0 ((tick tau0 ⟨0, 0⟩).2.clk + 1) - 0) := by
      show (1 : ℚ) / 4 < 24000 - (0 - 0)
      norm_num
    exact guardCheck_true_of tau0 (tick tau0 ⟨0, 0⟩).1 6000 0 24000
      (tick tau0 ⟨0, 0⟩).2 h1 h2
  obtain ⟨hsome, hst⟩ := tspTrack_guard_true_state tau0 gen0 none
    ⟨1337, 400, none, true⟩ 0 24000 6000 ⟨0, 0⟩ hg
  refine ⟨hsome, ?_, ?_, ?_⟩
  · rw [hst]
  · rw [hst, _time_left_eq]
    show (1 : ℚ) / 4 < 6000 - (0 - 0)
    norm_num
  · rw [hst, _time_left_eq]
    show (1 : ℚ) / 4 < 24000 - (0 - 0)
    norm_num

/-- C8 amended: the 3-SAT and vertex-cover loops iterate exactly while the
two-tracker guard holds — a failed guard exits immediately with no generator
call, a passing guard performs at least one generate-and-solve — whereas the
tsp track performs at most one iteration regardless of the guard (its loop
body ends in `break`; it does iterate once exactly when the guard passes),
and the knapsack track performs exactly one generate-and-solve without
consulting any tracker. -/
theorem track_loop_iteration_behavior :
    (∀ (τ : Nat → ℚ) (g : Gen) (start budget sat_start sat_budget : ℚ)
        (fuel n : Nat) (best : SatBest) (s : RunSt),
      ((guardCheck τ sat_start sat_budget start budget s).1 = false →
        satLoopR τ g start budget sat_start sat_budget (fuel + 1) n best s =
          (best, (guardCheck τ sat_start sat_budget start budget s).2) ∧
        (satLoopR τ g start budget sat_start sat_budget
          (fuel + 1) n best s).2.rng = s.rng) ∧
      ((guardCheck τ sat_start sat_budget start budget s).1 = true →
        s.rng + 1 ≤ (satLoopR τ g start budget sat_start sat_budget
          (fuel + 1) n best s).2.rng)) ∧
    (∀ (τ : Nat → ℚ) (g : Gen) (start budget vc_start vc_budget : ℚ)
        (fuel vc_n : Nat) (best : VcBest) (s : RunSt),
      ((guardCheck τ vc_start vc_budget start budget s).1 = false →
        vcLoopR τ g start budget vc_start vc_budget (fuel + 1) vc_n best s =
          (best, (guardCheck τ vc_start vc_budget start budget s).2) ∧
        (vcLoopR τ g start budget vc_start vc_budget
          (fuel + 1) vc_n best s).2.rng = s.rng) ∧
      ((guardCheck τ vc_start vc_budget start budget s).1 = true →
        s.rng + 1 ≤ (vcLoopR τ g start budget vc_start vc_budget
          (fuel + 1) vc_n best s).2.rng)) ∧
    (∀ (τ : Nat → ℚ) (g : Gen) (gpu : Option (List Nat × AccelMeta))
        (cfg : BenchConfig) (start budget ppb : ℚ) (s : RunSt),
      (tspTrack τ g gpu cfg start budget ppb s).2.rng ≤ s.rng + 1 ∧
      ((guardCheck τ (tick τ s).1 ppb start budget (tick τ s).2).1 = true →
        (tspTrack τ g gpu cfg start budget ppb s).1.isSome = true ∧
        (tspTrack τ g gpu cfg start budget ppb s).2.rng = s.rng + 1) ∧
      ((guardCheck τ (tick τ s).1 ppb start budget (tick τ s).2).1 = false →
        (tspTrack τ g gpu cfg start budget ppb s).1 = none)) ∧
    (∀ (τ : Nat → ℚ) (g : Gen) (s : RunSt),
      (ksTrack τ g s).2.rng = s.rng + 1) := by
  refine ⟨?_, ?_, ?_, ?_⟩
  · intro τ g start budget sat_start sat_budget fuel n best s
    constructor
    · intro hg
      have h := satLoopR_guard_false τ g start budget sat_start sat_budget
        fuel n best s hg
      refine ⟨h, ?_⟩
      rw [h]
      exact guardCheck_rng τ sat_start sat_budget start budget s
    · exact satLoopR_guard_true τ g start budget sat_start sat_budget fuel n best s
  · intro τ g start budget vc_start vc_budget fuel vc_n best s
    constructor
    · intro hg
      have h := vcLoopR_guard_false τ g start budget vc_start vc_budget
        fuel vc_n best s hg
      refine ⟨h, ?_⟩
      rw [h]
      exact guardCheck_rng τ vc_start vc_budget start budget s
    · exact vcLoopR_guard_true τ g start budget vc_start vc_budget fuel vc_n best s
  · intro τ g gpu cfg start budget ppb s
    refine ⟨tspTrack_rng_le τ g gpu cfg start budget ppb s, ?_, ?_⟩
    · exact tspTrack_guard_true_isSome τ g gpu cfg start budget ppb s
    · intro hg
      rw [tspTrack_guard_false τ g gpu cfg start budget ppb s hg]
  · intro τ g s
    rw [ksTrack_eq]

/-- Witness for the amended C8 at concrete inputs: the knapsack track, run
with an exhausted clock, still consumes exactly one generator call. -/
theorem track_loop_iteration_behavior_witness :
    (ksTrack tau0 gen0 ⟨0, 0⟩).2.rng = 0 + 1 :=
  track_loop_iteration_behavior.2.2.2 tau0 gen0 ⟨0, 0⟩

/-- C6 counterexample: with `minutes = 0` and no override, the per-problem
budget is the floor value `1.0`, not `0 * 60 / 4 = 0`: the code computes
`max(1.0, budget / 4.0)`, not `budget / 4.0`. -/
theorem per_problem_budget_quarter_counterexample :
    per_problem_budget ⟨1337, 0, none, true⟩ = 1 ∧
    (0 : ℚ) * 60 / 4 = 0 ∧ (1 : ℚ) ≠ 0 := by
  refine ⟨?_, by norm_num, by norm_num⟩
  simp only [per_problem_budget, _deadline_seconds]
  norm_num

/-- C6 amended: with no override the per-problem budget is
`max(1.0, minutes * 60 / 4)` — the quarter of the global budget floored at
one second — and with an override it is exactly the override. -/
theorem per_problem_budget_correct (cfg : BenchConfig) :
    (cfg.per_problem_max_seconds = none →
      per_problem_budget cfg = max 1 (cfg.minutes * 60 / 4)) ∧
    (∀ s, cfg.per_problem_max_seconds = some s → per_problem_budget cfg = s) := by
  constructor
  · intro h
    simp only [per_problem_budget, h, _deadline_seconds]
  · intro s h
    simp only [per_problem_budget, h]

/-- Witness for the amended C6 at the default configuration. -/
theorem per_problem_budget_correct_witness :
    per_problem_budget ⟨1337, 5, none, true⟩ = max 1 ((5 : ℚ) * 60 / 4) :=
  (per_problem_budget_correct ⟨1337, 5, none, true⟩).1 rfl

end NPBench
